import Mathlib

/-!
# lxdocker: layer flattening, init synthesis and the update sweep

A shallow embedding of `cmd/lxdocker/lxdocker.go`, of the bundle and catalog
handlers of `cmd/imgserver/imgserver.go`, and of `pkg/common/common.go`.

Go strings are byte sequences.  They are modelled as lists of characters, one
character per byte; every function below compares characters with ASCII
constants only (`/`, `.`, `=`, `\`, `"`, `$`), so nothing depends on how a byte
outside ASCII is represented.

The Go standard library functions used by the program (`strings.Replace`,
`strings.Split`, `strings.HasPrefix`, `strings.TrimSuffix`, `filepath.Clean`,
`filepath.Base`, `filepath.Dir`, `filepath.Ext`, `filepath.Join`) are modelled
after their Unix implementations.
-/

namespace Lxdocker

/-! ## Strings -/

/-- Go `string`: a sequence of bytes, one `Char` per byte. -/
abbrev Str := List Char

/-- Loop of `strings.Replace(s, old, new, -1)` for a non-empty `old`: scan from
the left; `skip` counts the bytes of a match that are still to be passed over. -/
def stringsReplaceLoop (old new : Str) : Nat → Str → Str
  | _, [] => []
  | skip + 1, _ :: cs => stringsReplaceLoop old new skip cs
  | 0, c :: cs =>
    if old.isPrefixOf (c :: cs) then new ++ stringsReplaceLoop old new (old.length - 1) cs
    else c :: stringsReplaceLoop old new 0 cs

/-- Go `strings.Replace(s, old, new, -1)`: every non-overlapping occurrence of
`old`, leftmost first, is replaced by `new`.  With an empty `old` Go inserts
`new` before every character and at the end. -/
def stringsReplace (s old new : Str) : Str :=
  if old = [] then new ++ s.flatMap (fun c => c :: new)
  else stringsReplaceLoop old new 0 s

/-- Go `strings.Split(s, sep)` for a one-byte separator. -/
def stringsSplit (s : Str) (sep : Char) : List Str := s.splitOn sep

/-- Go `strings.HasPrefix`. -/
def stringsHasPrefix (s pre : Str) : Bool := pre.isPrefixOf s

/-- Go `strings.TrimSuffix`. -/
def stringsTrimSuffix (s suffix : Str) : Str :=
  if suffix.isSuffixOf s then s.take (s.length - suffix.length) else s

/-- Constant `whiteoutPrefix` of the program. -/
def whiteoutPrefix : Str := ".wh.".toList

/-- Function `shellEscape` of the program: three successive replacements. -/
def shellEscape (s : Str) : Str :=
  let s := stringsReplace s ['\\'] ['\\', '\\']
  let s := stringsReplace s ['"'] ['\\', '"']
  let s := stringsReplace s ['$'] ['\\', '$']
  s

/-! ## path/filepath (Unix) -/

/-- The elements of a path between its separators. -/
def pathComponents (p : Str) : List Str := p.splitOn '/'

/-- The path element `..`. -/
def dotdot : Str := ['.', '.']

/-- One element of the loop of `filepath.Clean`.  `st` is the output written so
far as a stack of elements, the last one written first.  Empty and `.` elements
are dropped; `..` removes the last element when that one is not itself `..`,
is appended when the path is not rooted, and is dropped at the root. -/
def cleanStep (rooted : Bool) (st : List Str) (c : Str) : List Str :=
  if c = [] ∨ c = ['.'] then st
  else if c = dotdot then
    match st with
    | [] => if rooted then [] else [dotdot]
    | t :: rest => if t = dotdot then (if rooted then st else dotdot :: st) else rest
  else c :: st

/-- The stack of elements `filepath.Clean` ends with. -/
def cleanStack (rooted : Bool) (cs : List Str) : List Str :=
  cs.foldl (cleanStep rooted) []

/-- The text of a cleaned path from its stack of elements. -/
def renderPath (rooted : Bool) (st : List Str) : Str :=
  if rooted then '/' :: ['/'].intercalate st.reverse
  else if st = [] then ['.'] else ['/'].intercalate st.reverse

/-- Whether a path begins with the separator. -/
def isRooted (p : Str) : Bool := p.head? == some '/'

/-- Go `filepath.Clean`. -/
def Clean (p : Str) : Str :=
  if p = [] then ['.']
  else renderPath (isRooted p) (cleanStack (isRooted p) (pathComponents p))

/-- Go `filepath.Base`: strip trailing separators, keep what follows the last
separator; `.` for the empty path and `/` for a path of separators only. -/
def Base (p : Str) : Str :=
  if p = [] then ['.']
  else
    let p1 := p.rdropWhile (fun c => c == '/')
    let p2 := p1.rtakeWhile (fun c => c != '/')
    if p2 = [] then ['/'] else p2

/-- Go `filepath.Dir`: `Clean` of the path up to and including its last
separator. -/
def Dir (p : Str) : Str := Clean (p.rdropWhile (fun c => c != '/'))

/-- Go `filepath.Ext`: the suffix beginning at the last dot of the last element,
empty when that element has no dot. -/
def Ext (p : Str) : Str :=
  let last := p.rtakeWhile (fun c => c != '/')
  if '.' ∈ last then '.' :: last.rtakeWhile (fun c => c != '.') else []

/-- Go `filepath.Join`: leading empty elements are ignored, the rest is joined
with separators and cleaned; the result is empty when every element is. -/
def Join : List Str → Str
  | [] => []
  | e :: rest => if e = [] then Join rest else Clean (['/'].intercalate (e :: rest))

/-! ## archive/tar -/

/-- Go `tar.Format`, the values the program can meet. -/
inductive Format
  | Unknown
  | USTAR
  | PAX
  | GNU
deriving DecidableEq, Repr

/-- Go `tar.TypeReg`. -/
def TypeReg : Char := '0'

/-- Go `tar.TypeLink`, a hard link. -/
def TypeLink : Char := '1'

/-- Go `tar.TypeSymlink`. -/
def TypeSymlink : Char := '2'

/-- Go `tar.TypeChar`, a character device. -/
def TypeChar : Char := '3'

/-- Go `tar.TypeBlock`, a block device. -/
def TypeBlock : Char := '4'

/-- Go `tar.TypeDir`. -/
def TypeDir : Char := '5'

/-- Go `tar.TypeFifo`. -/
def TypeFifo : Char := '6'

/-- Function `isHeaderOnlyType` of archive/tar: an entry of one of these types
has no data; the writer takes no byte for it, whatever its `Size`. -/
def isHeaderOnlyType (flag : Char) : Bool :=
  flag == TypeLink || flag == TypeSymlink || flag == TypeChar || flag == TypeBlock ||
    flag == TypeDir || flag == TypeFifo

/-- Go `tar.Header`, the fields the program reads or writes.  The zero value of
`Typeflag` is the byte 0. -/
structure Header where
  Name : Str
  Linkname : Str := []
  Typeflag : Char := Char.ofNat 0
  Size : Int := 0
  Mode : Int := 0
  Format : Format := Format.Unknown
deriving DecidableEq, Repr

/-- One member of a tar stream: a header and the bytes that follow it. -/
structure TarEntry where
  hdr : Header
  data : Str
deriving DecidableEq, Repr

/-- The entries a `tar.Writer` has written so far, oldest first. -/
abbrev TarWriter := List TarEntry

/-- The map `fileMap` (`seen`) of the flattener, as an association list; a
lookup returns the binding made last. -/
abbrev FileMap := List (Str × Bool)

/-- The errors of the tar-writing functions: `tarWriter.WriteHeader` failed,
`io.CopyN` failed, or an input (host file, image config, layer list, layer
stream, YAML encoding) could not be obtained. -/
inductive WriteErr
  | header
  | contents
  | source
deriving DecidableEq, Repr

/-- State after a call that writes to the tar stream: the writer, the map, and
the error returned (`none` for `nil`). -/
structure Sink where
  tw : TarWriter
  fileMap : FileMap
  err : Option WriteErr
deriving DecidableEq, Repr

/-- Loop of `inWhiteoutDir`, bounded by `fuel` iterations. -/
def inWhiteoutDirLoop (fileMap : FileMap) : Nat → Str → Bool
  | 0, _ => false
  | fuel + 1, file =>
    if file = [] then false
    else
      let dirname := Dir file
      if file = dirname then false
      else if fileMap.lookup dirname = some true then true
      else inWhiteoutDirLoop fileMap fuel dirname

/-- Function `inWhiteoutDir` of the program.  The bound on the iterations is
never reached (`inWhiteoutDirLoop_iff`). -/
def inWhiteoutDir (fileMap : FileMap) (file : Str) : Bool :=
  inWhiteoutDirLoop fileMap (file.length + 3) file

/-- The logical path `name` that `writeTarFile` computes for a header name:
the cleaned name with the whiteout prefix of its last element removed. -/
def logicalName (headerName : Str) : Str :=
  let cleaned := Clean headerName
  let basename := Base cleaned
  let dirname := Dir cleaned
  let tombstone := stringsHasPrefix basename whiteoutPrefix
  let basename := if tombstone then basename.drop whiteoutPrefix.length else basename
  Join [dirname, basename]

/-- Whether `writeTarFile` takes a header name for a whiteout marker. -/
def isTombstone (headerName : Str) : Bool :=
  stringsHasPrefix (Base (Clean headerName)) whiteoutPrefix

/-- The header `writeTarFile` hands to the tar writer. -/
def rootfsHeader (header : Header) : Header :=
  let cleaned := Clean header.Name
  { header with
    Name := Join ["rootfs".toList, cleaned]
    Format := Format.PAX
    Linkname :=
      if header.Typeflag = TypeLink then Join ["rootfs".toList, header.Linkname]
      else header.Linkname }

/-- Function `writeTarFile` of the program.  `accept` tells whether
`tarWriter.WriteHeader` succeeds on a header; `contents` is what the reader can
deliver.  `io.CopyN` with `header.Size > 0` fails for an entry of a header-only
type, for which the tar writer takes no data (`write too long`, or the end of
an empty reader), and otherwise when the reader is shorter than `header.Size`. -/
def writeTarFile (accept : Header → Bool) (tw : TarWriter) (fileMap : FileMap)
    (header : Header) (contents : Str) : Sink :=
  let name := logicalName header.Name
  let tombstone := isTombstone header.Name
  if (fileMap.lookup name).isSome then ⟨tw, fileMap, none⟩
  else if inWhiteoutDir fileMap name then ⟨tw, fileMap, none⟩
  else
    let fileMap := (name, tombstone || !(header.Typeflag == TypeDir)) :: fileMap
    if !tombstone then
      let header := rootfsHeader header
      if !accept header then ⟨tw, fileMap, some WriteErr.header⟩
      else if 0 < header.Size then
        if isHeaderOnlyType header.Typeflag then
          ⟨tw ++ [⟨header, []⟩], fileMap, some WriteErr.contents⟩
        else if contents.length < header.Size.toNat then
          ⟨tw ++ [⟨header, contents⟩], fileMap, some WriteErr.contents⟩
        else ⟨tw ++ [⟨header, contents.take header.Size.toNat⟩], fileMap, none⟩
      else ⟨tw ++ [⟨header, []⟩], fileMap, none⟩
    else ⟨tw, fileMap, none⟩

/-! ## The init script -/

/-- Go `v1.Config`, the fields `writeInit` reads. -/
structure Config where
  Env : List Str
  WorkingDir : Str
  Entrypoint : List Str
  Cmd : List Str
deriving DecidableEq, Repr

/-- The line `writeInit` prints for one element of `Env`. -/
def envLine (keyval : Str) : Str :=
  let key := (stringsSplit keyval '=').headD []
  "if [ -z \"$\x7b".toList ++ key ++ "+x\x7d\" ]; then export \"".toList
    ++ shellEscape keyval ++ "\"; fi\n".toList

/-- The text `writeInit` prints for one element of `Entrypoint` or `Cmd`. -/
def argText (arg : Str) : Str :=
  "\"".toList ++ shellEscape arg ++ "\" ".toList

/-- The buffer `data` of `writeInit` when the header is built: the prints of
the function in program order. -/
def initScript (config : Config) : Str :=
  let data := "#!/busybox-lxd sh\n\n".toList
  let data := config.Env.foldl (fun data keyval => data ++ envLine keyval) data
  let data := data ++ ("cd \"".toList ++ shellEscape config.WorkingDir ++ "\"\n".toList)
  let data := data ++ "/busybox-lxd mkdir -p /dev/shm\n".toList
  let data := data ++ "/busybox-lxd mount -t tmpfs shmfs /dev/shm\n".toList
  let data := data ++ "/busybox-lxd echo 0 > /proc/sys/net/ipv4/ip_forward\n".toList
  let data := data ++ "/busybox-lxd echo 0 > /proc/sys/net/ipv6/conf/all/forwarding\n".toList
  let data := data ++ "/busybox-lxd udhcpc -R -b -i eth0 -s /lxd-udhcpc-default.script\n".toList
  let data := config.Entrypoint.foldl (fun data arg => data ++ argText arg) data
  let data := config.Cmd.foldl (fun data arg => data ++ argText arg) data
  let data := data ++ "&\n".toList
  let data := data ++ "trap 'kill -15 $child' PWR\n".toList
  let data := data ++ "child=$!; wait \"$child\"\n".toList
  data

/-- Function `writeInit` of the program. -/
def writeInit (accept : Header → Bool) (tw : TarWriter) (fileMap : FileMap)
    (config : Config) : Sink :=
  let data := initScript config
  let header : Header := { Name := "sbin/init".toList, Mode := 0o755, Size := data.length }
  writeTarFile accept tw fileMap header data

/-! ## The bundle tar -/

/-- Go `v1.ConfigFile`, the fields the program reads. -/
structure ConfigFile where
  Architecture : Str
  Config : Config
deriving DecidableEq, Repr

/-- Go `lxdapi.ImageMetadata`, the fields `writeMetadata` sets. -/
structure ImageMetadata where
  Architecture : Str
  CreationDate : Int
  Properties : List (Str × Str)
deriving DecidableEq, Repr

/-- One layer of an image as the flattener reads it: whether
`layer.Uncompressed()` succeeds, the entries `tarReader.Next()` then delivers
(each with the bytes its reader can supply), and whether the stream ends with a
read error instead of `io.EOF`. -/
structure Layer where
  readable : Bool
  entries : List TarEntry
  broken : Bool
deriving DecidableEq, Repr

/-- Go `v1.Hash`. -/
structure Hash where
  Algorithm : Str
  Hex : Str
deriving DecidableEq, Repr

/-- Go `v1.Image` as the program uses it: the config file, the layers (base
layer first) and the manifest digest, each `none` when the call fails. -/
structure Image where
  configFile : Option ConfigFile
  layers : Option (List Layer)
  digest : Option Hash
deriving DecidableEq, Repr

/-- What `generateRootfsTar` takes from its surroundings: the verdict of
`tarWriter.WriteHeader`, the contents of `/tmp/busybox` and
`/tmp/default.script` (`none` when stat or open fails), the clock, and
`yaml.Marshal` on the metadata. -/
structure Host where
  accept : Header → Bool
  busybox : Option Str
  defaultScript : Option Str
  now : Int
  yamlMarshal : ImageMetadata → Option Str

/-- Function `writeMetadata` of the program: the header is written directly,
without `writeTarFile` and without the map. -/
def writeMetadata (host : Host) (tw : TarWriter) (fileMap : FileMap) (name : Str)
    (configFile : ConfigFile) : Sink :=
  let metadata : ImageMetadata :=
    { Architecture := configFile.Architecture
      CreationDate := host.now
      Properties := [("description".toList, name)] }
  match host.yamlMarshal metadata with
  | none => ⟨tw, fileMap, some WriteErr.source⟩
  | some data =>
    let header : Header := { Name := "metadata.yaml".toList, Mode := 0o644, Size := data.length }
    if !host.accept header then ⟨tw, fileMap, some WriteErr.header⟩
    else ⟨tw ++ [⟨header, data⟩], fileMap, none⟩

/-- Function `writeHostFile` of the program; `src` is the content of the host
file, `none` when `os.Stat` or `os.Open` fails. -/
def writeHostFile (accept : Header → Bool) (tw : TarWriter) (fileMap : FileMap)
    (dst : Str) (src : Option Str) (mode : Int) : Sink :=
  match src with
  | none => ⟨tw, fileMap, some WriteErr.source⟩
  | some file =>
    let header : Header := { Name := dst, Mode := mode, Size := file.length }
    writeTarFile accept tw fileMap header file

/-- The inner loop of `generateRootfsTar` over the entries of one layer. -/
def writeEntries (accept : Header → Bool) : TarWriter → FileMap → List TarEntry → Sink
  | tw, fileMap, [] => ⟨tw, fileMap, none⟩
  | tw, fileMap, e :: es =>
    let s := writeTarFile accept tw fileMap e.hdr e.data
    if s.err.isSome then s else writeEntries accept s.tw s.fileMap es

/-- One iteration of the layer loop of `generateRootfsTar`. -/
def writeLayer (accept : Header → Bool) (tw : TarWriter) (fileMap : FileMap)
    (layer : Layer) : Sink :=
  if !layer.readable then ⟨tw, fileMap, some WriteErr.source⟩
  else
    let s := writeEntries accept tw fileMap layer.entries
    if s.err.isSome then s
    else if layer.broken then ⟨s.tw, s.fileMap, some WriteErr.source⟩
    else s

/-- The layer loop of `generateRootfsTar`, over the layers in the order they
are visited. -/
def writeLayers (accept : Header → Bool) : TarWriter → FileMap → List Layer → Sink
  | tw, fileMap, [] => ⟨tw, fileMap, none⟩
  | tw, fileMap, layer :: rest =>
    let s := writeLayer accept tw fileMap layer
    if s.err.isSome then s else writeLayers accept s.tw s.fileMap rest

/-- The part of `generateRootfsTar` before the layer loop: the two host files,
`metadata.yaml` and `sbin/init`. -/
def writePreamble (host : Host) (name : Str) (configFile : ConfigFile) : Sink :=
  let s := writeHostFile host.accept [] [] "/busybox-lxd".toList host.busybox 0o755
  if s.err.isSome then s else
  let s := writeHostFile host.accept s.tw s.fileMap "/lxd-udhcpc-default.script".toList
    host.defaultScript 0o755
  if s.err.isSome then s else
  let s := writeMetadata host s.tw s.fileMap name configFile
  if s.err.isSome then s else
  writeInit host.accept s.tw s.fileMap configFile.Config

/-- Function `generateRootfsTar` of the program.  The layers are visited from
the last one (topmost) down to the first (base). -/
def generateRootfsTar (host : Host) (img : Image) (name : Str) : Sink :=
  match img.configFile with
  | none => ⟨[], [], some WriteErr.source⟩
  | some configFile =>
    match img.layers with
    | none => ⟨[], [], some WriteErr.source⟩
    | some layers =>
      let s := writePreamble host name configFile
      if s.err.isSome then s else writeLayers host.accept s.tw s.fileMap layers.reverse

/-! ## The update controller -/

/-- Go `common.RootfsMetadata`. -/
structure RootfsMetadata where
  SpecDigest : Hash
  OciImageDigest : Hash
  LxdImageDigest : Hash
  Filename : Str
deriving DecidableEq, Repr

/-- Type `ImageSpec` of the program. -/
structure ImageSpec where
  Image : Str
deriving DecidableEq, Repr

/-- One entry of the directory `imageDir`: its name, whether it is a directory,
and what `common.ReadRootfsMetaData` decodes from it (`none` when the strict
YAML decoding fails). -/
structure DirEntry where
  name : Str
  isDir : Bool
  decoded : Option RootfsMetadata
deriving DecidableEq, Repr

/-- The directory `imageDir` as `ioutil.ReadDir` lists it. -/
abbrev ImageDir := List DirEntry

/-- Whether a name exists in the directory. -/
def dirHas (dir : ImageDir) (name : Str) : Bool := dir.any (fun e => e.name == name)

/-- The directory after `os.Remove` of a name. -/
def dirRemove (dir : ImageDir) (name : Str) : ImageDir := dir.filter (fun e => e.name != name)

/-- The directory after `os.CreateTemp` created the regular file `name`. -/
def dirCreate (dir : ImageDir) (name : Str) : ImageDir := dir ++ [⟨name, false, none⟩]

/-- The directory after `os.Rename(old, new)` of a regular file whose content
decodes as `decoded`: `old` is gone and `new` is replaced. -/
def dirRename (dir : ImageDir) (old new : Str) (decoded : Option RootfsMetadata) : ImageDir :=
  (dir.filter (fun e => e.name != old && e.name != new)) ++ [⟨new, false, decoded⟩]

/-- Function `common.ReadRootfsMetaData` on a file of `imageDir`: an error
(`none`) when the file is missing, is a directory, or does not decode. -/
def ReadRootfsMetaData (dir : ImageDir) (name : Str) : Option RootfsMetadata :=
  match dir.find? (fun e => e.name == name) with
  | none => none
  | some e => if e.isDir then none else e.decoded

/-- Function `hashToV1` of the program, on the hex text of the sum. -/
def hashToV1 (hex : Str) : Hash := ⟨"sha256".toList, hex⟩

/-- One entry of the directory `specDir` together with what the surroundings
answer while `updateAll` processes it: the bytes `ioutil.ReadFile` returns, the
result of the strict YAML decoding, the image `getImage` returns, the name of the
file each `os.CreateTemp` creates, whether `generateRootfs` succeeds, the hash
`hashFile` returns, and whether each `os.Rename` and the YAML encoding succeed.
`none` and `false` stand for an error. -/
structure SpecRun where
  fileName : Str
  isDir : Bool
  specBytes : Option Str
  spec : Option ImageSpec
  image : Option Image
  tempRootfs : Option Str
  generated : Bool
  rootfsHash : Option Hash
  renameRootfs : Bool
  tempMeta : Option Str
  encoded : Bool
  renameMeta : Bool
deriving DecidableEq, Repr

/-- The exits of one iteration of the loop of `updateAll`, one per `continue`
and one for the end of the body. -/
inductive Outcome
  | notASpec
  | readFailed
  | parseFailed
  | imageFailed
  | digestFailed
  | unchanged
  | tempFailed
  | generateFailed
  | hashFailed
  | renameFailed
  | metaTempFailed
  | encodeFailed
  | metaRenameFailed
  | rebuilt
deriving DecidableEq, Repr

/-- The variables of `updateAll` and the directory `imageDir`. -/
structure Run where
  usedOciImages : List Hash
  usedLxdImages : List Str
  usedLxdMetadata : List Str
  imageDir : ImageDir
deriving DecidableEq, Repr

/-- The spec name of a file of `specDir`. -/
def specName (fileName : Str) : Str := stringsTrimSuffix (Base fileName) (Ext fileName)

/-- The name `updateAll` gives to the bundle of a spec. -/
def rootfsFilenameOf (name : Str) (rootfsHash : Hash) : Str :=
  name ++ "-".toList ++ rootfsHash.Hex ++ ".rootfs".toList

/-- The tail of the loop body of `updateAll`, from `write rootfs` on: build the
bundle in a temporary file, hash it, rename it to its final name, then write the
metadata to a temporary file and rename that. -/
def rebuildBundle (run : Run) (file : SpecRun) (name : Str) (specHash ociHash : Hash) :
    Run × Outcome :=
  match file.tempRootfs with
  | none => (run, Outcome.tempFailed)
  | some temp =>
    if dirHas run.imageDir temp then (run, Outcome.tempFailed)
    else
      let run := { run with imageDir := dirCreate run.imageDir temp }
      if !file.generated then (run, Outcome.generateFailed)
      else
        match file.rootfsHash with
        | none => (run, Outcome.hashFailed)
        | some rootfsHash =>
          let rootfsFilename := rootfsFilenameOf name rootfsHash
          if !file.renameRootfs then (run, Outcome.renameFailed)
          else
            let run := { run with imageDir := dirRename run.imageDir temp rootfsFilename none }
            let rootMeta : RootfsMetadata :=
              { SpecDigest := specHash
                OciImageDigest := ociHash
                LxdImageDigest := rootfsHash
                Filename := rootfsFilename }
            match file.tempMeta with
            | none => (run, Outcome.metaTempFailed)
            | some tempMeta =>
              if dirHas run.imageDir tempMeta then (run, Outcome.metaTempFailed)
              else
                let run := { run with imageDir := dirCreate run.imageDir tempMeta }
                if !file.encoded then (run, Outcome.encodeFailed)
                else if !file.renameMeta then (run, Outcome.metaRenameFailed)
                else
                  ({ run with
                      imageDir :=
                        dirRename run.imageDir tempMeta (name ++ ".meta".toList) (some rootMeta)
                      usedOciImages := ociHash :: run.usedOciImages
                      usedLxdImages := rootfsFilename :: run.usedLxdImages },
                    Outcome.rebuilt)

/-- The body of the loop of `updateAll` for one entry of `specDir`.  `sha256Hex`
is the hex text of the SHA-256 sum. -/
def processSpec (sha256Hex : Str → Str) (run : Run) (file : SpecRun) : Run × Outcome :=
  if file.isDir then (run, Outcome.notASpec)
  else
    let ext := Ext file.fileName
    if ext != ".yaml".toList && ext != ".yml".toList then (run, Outcome.notASpec)
    else
      let name := stringsTrimSuffix (Base file.fileName) ext
      let metadataFilename := name ++ ".meta".toList
      let run := { run with usedLxdMetadata := name :: run.usedLxdMetadata }
      match file.specBytes with
      | none => (run, Outcome.readFailed)
      | some specBytes =>
        let specHash := hashToV1 (sha256Hex specBytes)
        match file.spec with
        | none => (run, Outcome.parseFailed)
        | some _ =>
          match file.image with
          | none => (run, Outcome.imageFailed)
          | some img =>
            match img.digest with
            | none => (run, Outcome.digestFailed)
            | some ociHash =>
              match ReadRootfsMetaData run.imageDir metadataFilename with
              | some oldRootMeta =>
                if oldRootMeta.SpecDigest = specHash ∧ oldRootMeta.OciImageDigest = ociHash then
                  ({ run with
                      usedOciImages := ociHash :: run.usedOciImages
                      usedLxdImages := oldRootMeta.Filename :: run.usedLxdImages },
                    Outcome.unchanged)
                else rebuildBundle run file name specHash ociHash
              | none => rebuildBundle run file name specHash ociHash

/-- The loop of `updateAll` over the entries of `specDir`. -/
def processSpecs (sha256Hex : Str → Str) : Run → List SpecRun → Run × List Outcome
  | run, [] => (run, [])
  | run, file :: rest =>
    let r := processSpec sha256Hex run file
    let rs := processSpecs sha256Hex r.1 rest
    (rs.1, r.2 :: rs.2)

/-- What the sweeps take from the file system: whether `ioutil.ReadDir` of
`imageDir` succeeds, whether `os.Remove` succeeds on a name, and whether
`removeUnusedOciImages` (which works on the OCI directory only) succeeds. -/
structure Disk where
  listable : Bool
  removable : Str → Bool
  ociSweep : Bool

/-- The errors `updateAll` returns. -/
inductive SweepErr
  | specDir
  | readDir
  | remove
  | oci
deriving DecidableEq, Repr

/-- The loop of `removeUnusedLxdMetadata` over the listing `files`. -/
def removeUnusedLxdMetadataLoop (removable : Str → Bool) (usedLxdMetadata : List Str) :
    List DirEntry → ImageDir → ImageDir × Option SweepErr
  | [], dir => (dir, none)
  | file :: files, dir =>
    if file.isDir then removeUnusedLxdMetadataLoop removable usedLxdMetadata files dir
    else
      let name := Base file.name
      let ext := Ext file.name
      if ext != ".yaml".toList then removeUnusedLxdMetadataLoop removable usedLxdMetadata files dir
      else if name ∈ usedLxdMetadata then
        removeUnusedLxdMetadataLoop removable usedLxdMetadata files dir
      else if !removable file.name then (dir, some SweepErr.remove)
      else removeUnusedLxdMetadataLoop removable usedLxdMetadata files (dirRemove dir file.name)

/-- Function `removeUnusedLxdMetadata` of the program. -/
def removeUnusedLxdMetadata (disk : Disk) (usedLxdMetadata : List Str) (dir : ImageDir) :
    ImageDir × Option SweepErr :=
  if !disk.listable then (dir, some SweepErr.readDir)
  else removeUnusedLxdMetadataLoop disk.removable usedLxdMetadata dir dir

/-- The loop of `removeUnusedLxdImages` over the listing `files`. -/
def removeUnusedLxdImagesLoop (removable : Str → Bool) (usedLxdImages : List Str) :
    List DirEntry → ImageDir → ImageDir × Option SweepErr
  | [], dir => (dir, none)
  | file :: files, dir =>
    if file.isDir then removeUnusedLxdImagesLoop removable usedLxdImages files dir
    else
      let name := Base file.name
      let ext := Ext file.name
      if ext != ".rootfs".toList then removeUnusedLxdImagesLoop removable usedLxdImages files dir
      else if name ∈ usedLxdImages then
        removeUnusedLxdImagesLoop removable usedLxdImages files dir
      else if !removable file.name then (dir, some SweepErr.remove)
      else removeUnusedLxdImagesLoop removable usedLxdImages files (dirRemove dir file.name)

/-- Function `removeUnusedLxdImages` of the program. -/
def removeUnusedLxdImages (disk : Disk) (usedLxdImages : List Str) (dir : ImageDir) :
    ImageDir × Option SweepErr :=
  if !disk.listable then (dir, some SweepErr.readDir)
  else removeUnusedLxdImagesLoop disk.removable usedLxdImages dir dir

/-- What a run of `updateAll` leaves: the variables and `imageDir`, the exit
taken for each entry of `specDir`, and the error returned. -/
structure UpdateResult where
  run : Run
  outcomes : List Outcome
  err : Option SweepErr
deriving DecidableEq, Repr

/-- Function `updateAll` of the program; `specs` is the listing of `specDir`
(`none` when `ioutil.ReadDir` fails) and `dir` the content of `imageDir`. -/
def updateAll (sha256Hex : Str → Str) (disk : Disk) (specs : Option (List SpecRun))
    (dir : ImageDir) : UpdateResult :=
  match specs with
  | none => ⟨⟨[], [], [], dir⟩, [], some SweepErr.specDir⟩
  | some files =>
    let r := processSpecs sha256Hex ⟨[], [], [], dir⟩ files
    let run := r.1
    let s1 := removeUnusedLxdMetadata disk run.usedLxdMetadata run.imageDir
    match s1.2 with
    | some e => ⟨{ run with imageDir := s1.1 }, r.2, some e⟩
    | none =>
      let s2 := removeUnusedLxdImages disk run.usedLxdImages s1.1
      match s2.2 with
      | some e => ⟨{ run with imageDir := s2.1 }, r.2, some e⟩
      | none =>
        if !disk.ociSweep then ⟨{ run with imageDir := s2.1 }, r.2, some SweepErr.oci⟩
        else ⟨{ run with imageDir := s2.1 }, r.2, none⟩

/-! ## The catalog server (cmd/imgserver/imgserver.go) -/

/-- What a handler of the catalog server does with a request for a bundle:
answer 404, hand a file path to `http.ServeFile`, or pass the request on to the
wrapped handler. -/
inductive Response
  | notFound
  | serveFile (path : Str)
  | passOn
deriving DecidableEq, Repr

/-- Function `rootfsJsonHandler` of the catalog server, on the request path
`r.URL.Path`; `imagesDir` is the global of that name. -/
def rootfsJsonHandler (imagesDir : Str) (urlPath : Str) : Response :=
  let pathComponents := stringsSplit urlPath '/'
  if pathComponents.length != 3 || pathComponents.getD 0 [] != [] ||
      pathComponents.getD 1 [] != "images".toList then
    Response.notFound
  else
    let filename := pathComponents.getD 2 []
    let ext := Ext filename
    if ext != ".rootfs".toList then Response.notFound
    else Response.serveFile (Join [imagesDir, filename])

/-- Function `wildcardRequestHandler` of the catalog server. -/
def wildcardRequestHandler (imagesDir : Str) (urlPath : Str) : Response :=
  if stringsHasPrefix urlPath "/images/".toList then rootfsJsonHandler imagesDir urlPath
  else Response.passOn

/-- Go `simplestreams.ProductVersionItem`, the fields the server sets. -/
structure ProductVersionItem where
  FileType : Str
  HashSha256 : Str
  Path : Str
  Size : Int
deriving DecidableEq, Repr

/-- Go `simplestreams.Product`, the fields the server sets; `Versions` maps a
version name to its items, and the items map a name to an item. -/
structure Product where
  Aliases : Str
  Architecture : Str
  OperatingSystem : Str
  ReleaseTitle : Str
  Versions : List (Str × List (Str × ProductVersionItem))
deriving DecidableEq, Repr

/-- One entry of `imagesDir` as `imagesJsonHandler` sees it: its name, whether it
is a directory, the date `os.Stat(...).ModTime().Format("20060102")` (`none` when
`os.Stat` fails) and the record `common.ReadRootfsMetaData` decodes (`none` when
it fails). -/
structure ServedFile where
  name : Str
  isDir : Bool
  modDate : Option Str
  decoded : Option RootfsMetadata
deriving DecidableEq, Repr

/-- What `imagesJsonHandler` ends with: the product map it encodes, the answer
500, or a run-time panic of the handler. -/
inductive ImagesJson
  | products (productMap : List (Str × Product))
  | internalError
  | panic
deriving DecidableEq, Repr

/-- Go slice expression `s[:n]` on a string: `none` stands for the run-time panic
"slice bounds out of range" when `n` exceeds the length. -/
def goSliceTo (s : Str) (n : Nat) : Option Str :=
  if n ≤ s.length then some (s.take n) else none

/-- Go map assignment `m[k] = v`. -/
def mapAssign {α : Type} (m : List (Str × α)) (k : Str) (v : α) : List (Str × α) :=
  m.filter (fun p => p.1 != k) ++ [(k, v)]

/-- The loop of `imagesJsonHandler` over the listing of `imagesDir`; `goarch` is
`runtime.GOARCH` and `statSize` the size `os.Stat` reports for a file of
`imagesDir` (`none` when it fails). -/
def imagesJsonLoop (goarch : Str) (statSize : Str → Option Int) :
    List ServedFile → List (Str × Product) → ImagesJson
  | [], productMap => ImagesJson.products productMap
  | file :: files, productMap =>
    if file.isDir then imagesJsonLoop goarch statSize files productMap
    else
      let ext := Ext file.name
      if ext != ".meta".toList then imagesJsonLoop goarch statSize files productMap
      else
        let name := stringsTrimSuffix (Base file.name) ext
        match file.modDate with
        | none => imagesJsonLoop goarch statSize files productMap
        | some date =>
          match file.decoded with
          | none => imagesJsonLoop goarch statSize files productMap
          | some metadata =>
            match statSize metadata.Filename with
            | none => imagesJsonLoop goarch statSize files productMap
            | some size =>
              match goSliceTo metadata.LxdImageDigest.Hex 12 with
              | none => ImagesJson.panic
              | some short =>
                let versionName := date ++ "_".toList ++ short
                let product : Product :=
                  { Aliases := name ++ "/current/default,".toList ++ name ++ "/current,".toList ++ name
                    Architecture := goarch
                    OperatingSystem := "docker:".toList ++ name
                    ReleaseTitle := "latest".toList
                    Versions :=
                      [(versionName,
                        [("lxd_combined.tar.gz".toList,
                          { FileType := "lxd_combined.tar.gz".toList
                            HashSha256 := metadata.LxdImageDigest.Hex
                            Path := Join ["images".toList, metadata.Filename]
                            Size := size })])] }
                imagesJsonLoop goarch statSize files (mapAssign productMap name product)

/-- Function `imagesJsonHandler` of the catalog server; `files` is the listing of
`imagesDir`, `none` when `ioutil.ReadDir` fails. -/
def imagesJsonHandler (goarch : Str) (statSize : Str → Option Int)
    (files : Option (List ServedFile)) : ImagesJson :=
  match files with
  | none => ImagesJson.internalError
  | some files => imagesJsonLoop goarch statSize files []

/-! ## Definitions for the statements: the escape and the script as the
specification words them, normal forms of cleaned paths, ancestors, blocking -/

/-- The escape of one character as the specification words it: a backslash, a
double quote and a dollar sign get a backslash in front, any other character
stands for itself. -/
def escapeChar (c : Char) : Str :=
  if c = '\\' ∨ c = '"' ∨ c = '$' then ['\\', c] else [c]

/-- The character-wise escape of a string, after the specification. -/
def specShellEscape (s : Str) : Str := s.flatMap escapeChar

/-- Deleting the backslash in front of each escaped character. -/
def unescape : Str → Str
  | [] => []
  | [c] => [c]
  | c :: d :: cs => if c = '\\' then d :: unescape cs else c :: unescape (d :: cs)

/-- The guarded export of one `Env` element as the specification words it,
without the newline: the key is the text before the first `=`. -/
def specEnvLine (keyval : Str) : Str :=
  "if [ -z \"$\x7b".toList ++ keyval.takeWhile (fun c => c != '=') ++ "+x\x7d\" ]; then export \"".toList
    ++ specShellEscape keyval ++ "\"; fi".toList

/-- A value in double quotes, escaped for that context. -/
def specQuoted (arg : Str) : Str := "\"".toList ++ specShellEscape arg ++ "\"".toList

/-- The lines of the init script in the order the specification lists them; the
shebang line is followed by an empty line. -/
def specInitLines (config : Config) : List Str :=
  ["#!/busybox-lxd sh".toList, []]
    ++ config.Env.map specEnvLine
    ++ ["cd ".toList ++ specQuoted config.WorkingDir,
        "/busybox-lxd mkdir -p /dev/shm".toList,
        "/busybox-lxd mount -t tmpfs shmfs /dev/shm".toList,
        "/busybox-lxd echo 0 > /proc/sys/net/ipv4/ip_forward".toList,
        "/busybox-lxd echo 0 > /proc/sys/net/ipv6/conf/all/forwarding".toList,
        "/busybox-lxd udhcpc -R -b -i eth0 -s /lxd-udhcpc-default.script".toList,
        (config.Entrypoint ++ config.Cmd).flatMap (fun arg => specQuoted arg ++ [' ']) ++ ['&'],
        "trap 'kill -15 $child' PWR".toList,
        "child=$!; wait \"$child\"".toList]

/-- The init script after the specification: its lines, each ended by a newline. -/
def specInitScript (config : Config) : Str :=
  (specInitLines config).flatMap (fun line => line ++ ['\n'])

/-- A proper path element: not empty, not `.`, not `..`, without separator. -/
def RealElem (c : Str) : Prop := c ≠ [] ∧ c ≠ ['.'] ∧ c ≠ dotdot ∧ '/' ∉ c

/-- Normal form of the stack of a cleaned path (last element first): proper
elements on top of `..` elements, the latter only when the path is not rooted. -/
def NormalStack (r : Bool) : List Str → Prop
  | [] => True
  | c :: st => (RealElem c ∧ NormalStack r st) ∨ (c = dotdot ∧ r = false ∧ ∀ d ∈ st, d = dotdot)

/-- The component list of a rendered path. -/
def renderedComponents (r : Bool) (st : List Str) : List Str :=
  if st = [] then (if r then [[], []] else [['.']])
  else (if r then [[]] else []) ++ st.reverse

/-- Measure that decreases along the chain `file, Dir file, Dir (Dir file), ...`
until the chain is stationary. -/
def dirMeasure (f : Str) : Nat := (pathComponents f).length + (if Dir f = f then 0 else 1)

/-- A path `a` is a proper ancestor of `file`: it is reached from `file` by
taking `filepath.Dir` one or more times, and differs from `file`. -/
def ProperAncestor (a file : Str) : Prop :=
  file ≠ [] ∧ a ≠ file ∧ ∃ k, 0 < k ∧ Nat.iterate Dir k file = a

/-- Whether `writeTarFile` skips the logical path `p`: it is in the map, or a
proper ancestor of it is mapped to true. -/
def blocked (m : FileMap) (p : Str) : Bool := (m.lookup p).isSome || inWhiteoutDir m p

/-- Map `m2` holds every binding of `m1`. -/
def MapLe (m1 m2 : FileMap) : Prop := ∀ k v, m1.lookup k = some v → m2.lookup k = some v

/-- No entry of the stream has a name whose last element begins with the
whiteout prefix. -/
def NoWhiteoutName (tw : TarWriter) : Prop :=
  ∀ w ∈ tw, stringsHasPrefix (Base w.hdr.Name) whiteoutPrefix = false

/-- A host on which every header is accepted and the host files are empty. -/
def demoHost : Host := ⟨fun _ => true, some [], some [], 0, fun _ => some []⟩

/-- An image config for the examples. -/
def demoConfig : ConfigFile :=
  ⟨"amd64".toList, ⟨["PATH=/bin".toList], "/".toList, [], ["/bin/sh".toList]⟩⟩

/-- A regular file entry without content. -/
def fileEntry (name : String) : TarEntry := ⟨{ Name := name.toList, Typeflag := TypeReg }, []⟩

/-- The entry names of a tar stream. -/
def entryNames (tw : TarWriter) : List String := tw.map (fun e => String.mk e.hdr.Name)

/-- A directory entry without content. -/
def dirEntry (name : String) : TarEntry := ⟨{ Name := name.toList, Typeflag := TypeDir }, []⟩

/-- A disk on which every operation succeeds. -/
def demoDisk : Disk := ⟨true, fun _ => true, true⟩

/-- A stand-in for the SHA-256 hex text in the examples. -/
def demoSha (s : Str) : Str := s

/-- A metadata record of the examples: spec bytes `image: hello`, OCI digest
`0c1`, bundle `hello-abc.rootfs`. -/
def demoMeta : RootfsMetadata :=
  ⟨hashToV1 (demoSha "image: hello".toList), hashToV1 "0c1".toList, hashToV1 "abc".toList,
    "hello-abc.rootfs".toList⟩

/-- The directory a previous run left: `hello.meta` and the bundle it names. -/
def demoDir : ImageDir :=
  [⟨"hello-abc.rootfs".toList, false, none⟩, ⟨"hello.meta".toList, false, some demoMeta⟩]

/-- An image of the examples with manifest digest `0c1`. -/
def demoImage : Image := ⟨some demoConfig, some [], some (hashToV1 "0c1".toList)⟩

/-- The entry `hello.yaml` of `specDir` in a run in which everything succeeds. -/
def demoSpec : SpecRun :=
  { fileName := "hello.yaml".toList, isDir := false, specBytes := some "image: hello".toList,
    spec := some ⟨"hello".toList⟩, image := some demoImage, tempRootfs := some "hello123".toList,
    generated := true, rootfsHash := some (hashToV1 "def".toList), renameRootfs := true,
    tempMeta := some "hello.meta456".toList, encoded := true, renameMeta := true }

/-- The names in a directory. -/
def dirNames (dir : ImageDir) : List String := dir.map (fun e => String.mk e.name)

/-- A hard link entry without content. -/
def linkEntry (name target : String) : TarEntry :=
  ⟨{ Name := name.toList, Linkname := target.toList, Typeflag := TypeLink }, []⟩

/-- A record as the YAML decoder leaves it when the file gives every field but
`LxdImageDigest`: that field keeps its zero value. -/
def metaWithoutDigest : RootfsMetadata :=
  ⟨hashToV1 "5bec".toList, hashToV1 "0c1".toList, ⟨[], []⟩, "hello-abc.rootfs".toList⟩

/-- A record with a bundle digest of 64 hex digits. -/
def metaWithDigest : RootfsMetadata :=
  ⟨hashToV1 "5bec".toList, hashToV1 "0c1".toList,
    hashToV1 "0123456789abcdef0123456789abcdef0123456789abcdef0123456789abcdef".toList,
    "hello-abc.rootfs".toList⟩

/-! ## Lemmas and theorems -/

/-! ### Shell escape and init script -/

theorem stringsReplaceLoop_single (a : Char) (new s : Str) :
    stringsReplaceLoop [a] new 0 s = s.flatMap (fun c => if c = a then new else [c]) := by
  induction s with
  | nil => simp [stringsReplaceLoop]
  | cons c cs ih =>
    by_cases h : c = a
    · subst h
      simp [stringsReplaceLoop, ih]
    · have h2 : ¬ a = c := fun e => h e.symm
      simp [stringsReplaceLoop, ih, h, h2]

theorem stringsReplace_single (a : Char) (new s : Str) :
    stringsReplace s [a] new = s.flatMap (fun c => if c = a then new else [c]) := by
  simp [stringsReplace, stringsReplaceLoop_single]

theorem shellEscape_eq (s : Str) : shellEscape s = specShellEscape s := by
  simp only [shellEscape, stringsReplace_single, specShellEscape]
  induction s with
  | nil => rfl
  | cons c cs ih =>
    simp only [List.flatMap_cons, List.flatMap_append, ih]
    congr 1
    by_cases h1 : c = '\\'
    · subst h1; decide
    · by_cases h2 : c = '"'
      · subst h2; decide
      · by_cases h3 : c = '$'
        · subst h3; decide
        · simp [escapeChar, h1, h2, h3]

theorem unescape_spec (s : Str) : unescape (specShellEscape s) = s := by
  induction s with
  | nil => rfl
  | cons c cs ih =>
    simp only [specShellEscape, List.flatMap_cons] at ih ⊢
    by_cases h : c = '\\' ∨ c = '"' ∨ c = '$'
    · simp only [escapeChar, h, if_true]
      simp [unescape, ih]
    · simp only [escapeChar, h, if_false]
      have hc : c ≠ '\\' := fun e => h (Or.inl e)
      cases hcs : List.flatMap cs escapeChar with
      | nil =>
        rw [hcs] at ih
        simp [unescape] at ih ⊢
        exact ih
      | cons d ds =>
        rw [hcs] at ih
        simp [unescape, hc, ih]

theorem foldl_append_eq {α : Type} (f : α → Str) (xs : List α) (init : Str) :
    xs.foldl (fun data x => data ++ f x) init = init ++ xs.flatMap f := by
  induction xs generalizing init with
  | nil => simp
  | cons x xs ih => simp [ih]

theorem splitOn_head (sep : Char) (s : Str) :
    (stringsSplit s sep).headD [] = s.takeWhile (fun c => c != sep) := by
  unfold stringsSplit List.splitOn
  induction s with
  | nil => rfl
  | cons c cs ih =>
    rw [List.splitOnP_cons]
    by_cases h : c = sep
    · simp [h]
    · simp only [beq_iff_eq, h, if_false]
      rw [List.takeWhile_cons]
      simp only [bne_iff_ne, ne_eq, h, not_false_eq_true, decide_True, if_true]
      cases hs : List.splitOnP (fun x => x == sep) cs with
      | nil => exact absurd hs (List.splitOnP_ne_nil _ _)
      | cons a as =>
        rw [hs] at ih
        simp at ih
        simp [List.modifyHead, ih]

theorem envLine_eq (keyval : Str) : envLine keyval = specEnvLine keyval ++ ['\n'] := by
  unfold envLine specEnvLine
  rw [splitOn_head, shellEscape_eq]
  simp

set_option maxRecDepth 100000 in
theorem initScript_eq (config : Config) : initScript config = specInitScript config := by
  simp only [initScript, foldl_append_eq, specInitScript, specInitLines, argText, shellEscape_eq,
    specQuoted]
  simp only [List.flatMap_append, List.flatMap_cons, List.flatMap_nil, List.append_assoc,
    List.flatMap_map, List.nil_append, List.append_nil, List.cons_append,  List.singleton_append]
  have h : ∀ xs : List Str, xs.flatMap envLine = xs.flatMap (fun a => specEnvLine a ++ ['\n']) := by
    intro xs; congr 1; funext a; exact envLine_eq a
  rw [h]
  rfl

/-! ### Path components -/

theorem pathComponents_ne_nil (p : Str) : pathComponents p ≠ [] :=
  List.splitOnP_ne_nil _ _

theorem pathComponents_cons_sep (p : Str) : pathComponents ('/' :: p) = [] :: pathComponents p := by
  simp [pathComponents, List.splitOn]

theorem pathComponents_cons_other (c : Char) (p : Str) (h : c ≠ '/') :
    pathComponents (c :: p) = (pathComponents p).modifyHead (List.cons c) := by
  simp [pathComponents, List.splitOn, h]

theorem pathComponents_intercalate (p : Str) : ['/'].intercalate (pathComponents p) = p :=
  List.intercalate_splitOn p '/'

theorem pathComponents_no_sep (p : Str) : ∀ c ∈ pathComponents p, '/' ∉ c := by
  induction p with
  | nil => simp [pathComponents]
  | cons a p ih =>
    by_cases h : a = '/'
    · subst h
      rw [pathComponents_cons_sep]
      intro c hc
      rcases List.mem_cons.1 hc with rfl | hc
      · simp
      · exact ih c hc
    · rw [pathComponents_cons_other a p h]
      cases hp : pathComponents p with
      | nil => exact absurd hp (pathComponents_ne_nil p)
      | cons x xs =>
        rw [hp] at ih
        intro c hc
        simp only [List.modifyHead, List.mem_cons] at hc
        rcases hc with rfl | hc
        · intro hm
          rcases List.mem_cons.1 hm with e | hm
          · exact h e.symm
          · exact ih x (List.mem_cons_self _ _) hm
        · exact ih c (List.mem_cons_of_mem _ hc)

theorem pathComponents_length_le (p : Str) : (pathComponents p).length ≤ p.length + 1 := by
  induction p with
  | nil => simp [pathComponents]
  | cons a p ih =>
    by_cases h : a = '/'
    · subst h
      rw [pathComponents_cons_sep]
      simp only [List.length_cons]
      omega
    · rw [pathComponents_cons_other a p h]
      cases hp : pathComponents p with
      | nil => exact absurd hp (pathComponents_ne_nil p)
      | cons x xs =>
        rw [hp] at ih
        simp only [List.modifyHead, List.length_cons] at ih ⊢
        omega

/-- Splitting at a separator splits the list of components. -/
theorem pathComponents_append_sep (x y : Str) :
    pathComponents (x ++ '/' :: y) = pathComponents x ++ pathComponents y := by
  induction x with
  | nil =>
    rw [List.nil_append, pathComponents_cons_sep]
    rfl
  | cons a x ih =>
    by_cases h : a = '/'
    · subst h
      simp only [List.cons_append, pathComponents_cons_sep, ih]
    · simp only [List.cons_append, pathComponents_cons_other a _ h, ih]
      cases hp : pathComponents x with
      | nil => exact absurd hp (pathComponents_ne_nil x)
      | cons c cs => simp [List.modifyHead]

theorem pathComponents_no_sep_self (y : Str) (h : '/' ∉ y) : pathComponents y = [y] := by
  unfold pathComponents List.splitOn
  apply List.splitOnP_eq_single
  intro c hc hcs
  simp only [beq_iff_eq] at hcs
  exact h (hcs ▸ hc)

/-- A path has no separator, or splits at its last separator. -/
theorem path_cases (p : Str) : '/' ∉ p ∨ ∃ x y, p = x ++ '/' :: y ∧ '/' ∉ y := by
  induction p with
  | nil => left; simp
  | cons a p ih =>
    rcases ih with h | ⟨x, y, rfl, hy⟩
    · by_cases ha : a = '/'
      · right; exact ⟨[], p, by simp [ha], h⟩
      · left
        intro hm
        rcases List.mem_cons.1 hm with e | hm
        · exact ha e.symm
        · exact h hm
    · right; exact ⟨a :: x, y, by simp, hy⟩

theorem rdropWhile_no_sep (y : Str) (h : '/' ∉ y) : y.rdropWhile (fun c => c != '/') = [] := by
  rw [List.rdropWhile_eq_nil_iff]
  intro c hc
  simp only [bne_iff_ne, ne_eq]
  intro e
  exact h (e ▸ hc)

theorem rdropWhile_last_sep (x y : Str) (h : '/' ∉ y) :
    (x ++ '/' :: y).rdropWhile (fun c => c != '/') = x ++ ['/'] := by
  induction y using List.reverseRecOn with
  | nil =>
    exact List.rdropWhile_concat_neg _ _ _ (by simp)
  | append_singleton y a ih =>
    have ha : a ≠ '/' := by
      intro e; apply h; simp [e]
    have hy : '/' ∉ y := by
      intro hm; apply h; simp [hm]
    have : x ++ '/' :: (y ++ [a]) = (x ++ '/' :: y) ++ [a] := by simp
    rw [this, List.rdropWhile_concat_pos _ _ _ (by simpa using ha), ih hy]

theorem rtakeWhile_no_sep (y : Str) (h : '/' ∉ y) : y.rtakeWhile (fun c => c != '/') = y := by
  rw [List.rtakeWhile_eq_self_iff]
  intro c hc
  simp only [bne_iff_ne, ne_eq]
  intro e
  exact h (e ▸ hc)

theorem rtakeWhile_last_sep (x y : Str) (h : '/' ∉ y) :
    (x ++ '/' :: y).rtakeWhile (fun c => c != '/') = y := by
  induction y using List.reverseRecOn with
  | nil =>
    exact List.rtakeWhile_concat_neg _ _ _ (by simp)
  | append_singleton y a ih =>
    have ha : a ≠ '/' := by
      intro e; apply h; simp [e]
    have hy : '/' ∉ y := by
      intro hm; apply h; simp [hm]
    have : x ++ '/' :: (y ++ [a]) = (x ++ '/' :: y) ++ [a] := by simp
    rw [this, List.rtakeWhile_concat_pos _ _ _ (by simpa using ha), ih hy]

/-! ### The stack of `filepath.Clean` -/

theorem cleanStack_append (r : Bool) (xs ys : List Str) :
    cleanStack r (xs ++ ys) = ys.foldl (cleanStep r) (cleanStack r xs) := by
  simp [cleanStack, List.foldl_append]

theorem cleanStep_nil (r : Bool) (st : List Str) : cleanStep r st [] = st := by
  simp [cleanStep]

theorem cleanStep_length_le (r : Bool) (st : List Str) (c : Str) :
    (cleanStep r st c).length ≤ st.length + 1 := by
  unfold cleanStep
  split
  · omega
  · split
    · cases st with
      | nil => cases r <;> simp
      | cons t rest =>
        simp only
        split
        · split <;> simp
        · simp only [List.length_cons]; omega
    · simp

theorem foldl_cleanStep_length_le (r : Bool) (cs st : List Str) :
    (cs.foldl (cleanStep r) st).length ≤ st.length + cs.length := by
  induction cs generalizing st with
  | nil => simp
  | cons c cs ih =>
    simp only [List.foldl_cons, List.length_cons]
    have := ih (cleanStep r st c)
    have := cleanStep_length_le r st c
    omega

theorem cleanStack_length_le (r : Bool) (cs : List Str) :
    (cleanStack r cs).length ≤ cs.length := by
  have := foldl_cleanStep_length_le r cs []
  simpa [cleanStack] using this

theorem normalStack_of_dots (r : Bool) (st : List Str) (hr : r = false)
    (h : ∀ d ∈ st, d = dotdot) : NormalStack r st := by
  induction st with
  | nil => trivial
  | cons c st _ =>
    right
    exact ⟨h c (List.mem_cons_self _ _), hr, fun d hd => h d (List.mem_cons_of_mem _ hd)⟩

theorem normalStack_tail (r : Bool) (c : Str) (st : List Str) (h : NormalStack r (c :: st)) :
    NormalStack r st := by
  rcases h with ⟨_, h⟩ | ⟨_, hr, h⟩
  · exact h
  · exact normalStack_of_dots r st hr h

theorem normalStack_no_sep (r : Bool) (st : List Str) (h : NormalStack r st) :
    ∀ c ∈ st, '/' ∉ c := by
  induction st with
  | nil => simp
  | cons c st ih =>
    intro d hd
    rcases List.mem_cons.1 hd with rfl | hd
    · rcases h with ⟨hc, _⟩ | ⟨hc, _, _⟩
      · exact hc.2.2.2
      · rw [hc]; decide
    · exact ih (normalStack_tail r c st h) d hd

theorem normalStack_ne_nil (r : Bool) (st : List Str) (h : NormalStack r st) :
    ∀ c ∈ st, c ≠ [] := by
  induction st with
  | nil => simp
  | cons c st ih =>
    intro d hd
    rcases List.mem_cons.1 hd with rfl | hd
    · rcases h with ⟨hc, _⟩ | ⟨hc, _, _⟩
      · exact hc.1
      · rw [hc]; decide
    · exact ih (normalStack_tail r c st h) d hd

theorem cleanStep_normal (r : Bool) (st : List Str) (c : Str) (h : NormalStack r st)
    (hc : '/' ∉ c) : NormalStack r (cleanStep r st c) := by
  unfold cleanStep
  split
  · exact h
  · rename_i h1
    split
    · cases st with
      | nil =>
        cases r
        · simp only [Bool.false_eq_true, if_false]
          right; exact ⟨rfl, rfl, by simp⟩
        · trivial
      | cons t rest =>
        simp only
        split
        · rename_i ht
          split
          · exact h
          · rename_i hr
            have hr : r = false := by simpa using hr
            rcases h with ⟨hre, _⟩ | ⟨_, _, hd⟩
            · exact absurd ht hre.2.2.1
            · right
              refine ⟨rfl, hr, ?_⟩
              intro d hd2
              rcases List.mem_cons.1 hd2 with e | hd2
              · rw [e, ht]
              · exact hd d hd2
        · exact normalStack_tail r t rest h
    · rename_i h2
      left
      refine ⟨⟨?_, ?_, h2, hc⟩, h⟩
      · intro e; exact h1 (Or.inl e)
      · intro e; exact h1 (Or.inr e)

theorem foldl_cleanStep_normal (r : Bool) (cs st : List Str) (h : NormalStack r st)
    (hc : ∀ c ∈ cs, '/' ∉ c) : NormalStack r (cs.foldl (cleanStep r) st) := by
  induction cs generalizing st with
  | nil => exact h
  | cons c cs ih =>
    simp only [List.foldl_cons]
    exact ih _ (cleanStep_normal r st c h (hc c (List.mem_cons_self _ _)))
      (fun d hd => hc d (List.mem_cons_of_mem _ hd))

theorem cleanStack_normal (r : Bool) (p : Str) : NormalStack r (cleanStack r (pathComponents p)) :=
  foldl_cleanStep_normal r _ [] trivial (pathComponents_no_sep p)

/-- On a normal stack, pushing back its top element rebuilds it. -/
theorem cleanStep_top (r : Bool) (c : Str) (st : List Str) (h : NormalStack r (c :: st)) :
    cleanStep r st c = c :: st := by
  rcases h with ⟨hc, _⟩ | ⟨hc, hr, hd⟩
  · have h1 : ¬ (c = [] ∨ c = ['.']) := by
      rintro (e | e)
      · exact hc.1 e
      · exact hc.2.1 e
    simp [cleanStep, h1, hc.2.2.1]
  · subst hc
    subst hr
    cases st with
    | nil => simp [cleanStep, dotdot]
    | cons t rest =>
      have ht : t = dotdot := hd t (List.mem_cons_self _ _)
      subst ht
      simp [cleanStep, dotdot]

theorem foldl_cleanStep_reverse (r : Bool) (st : List Str) (h : NormalStack r st) :
    st.reverse.foldl (cleanStep r) [] = st := by
  induction st with
  | nil => rfl
  | cons c st ih =>
    rw [List.reverse_cons, List.foldl_append, ih (normalStack_tail r c st h)]
    simp only [List.foldl_cons, List.foldl_nil]
    exact cleanStep_top r c st h

/-! ### Rendering a cleaned path -/

theorem intercalate_cons_cons (x y : Str) (ys : List Str) :
    ['/'].intercalate (x :: y :: ys) = x ++ '/' :: ['/'].intercalate (y :: ys) := by
  simp [List.intercalate, List.intersperse]

theorem intercalate_single (x : Str) : ['/'].intercalate [x] = x := by
  simp [List.intercalate]

theorem intercalate_concat (xs : List Str) (t : Str) (h : xs ≠ []) :
    ['/'].intercalate (xs ++ [t]) = ['/'].intercalate xs ++ '/' :: t := by
  induction xs with
  | nil => exact absurd rfl h
  | cons x xs ih =>
    cases xs with
    | nil => simp [intercalate_cons_cons, intercalate_single]
    | cons y ys =>
      have := ih (by simp)
      simp only [List.cons_append] at this ⊢
      rw [intercalate_cons_cons, this, intercalate_cons_cons]
      simp

theorem renderPath_ne_nil (r : Bool) (st : List Str) (h : NormalStack r st) :
    renderPath r st ≠ [] := by
  unfold renderPath
  cases r
  · simp only [Bool.false_eq_true, if_false]
    split
    · simp
    · rename_i hst
      cases hrev : st.reverse with
      | nil => simp at hrev; exact absurd hrev hst
      | cons x xs =>
        have hx : x ≠ [] := normalStack_ne_nil false st h x (by
          have : x ∈ st.reverse := by rw [hrev]; exact List.mem_cons_self _ _
          simpa using this)
        cases xs with
        | nil => simpa [intercalate_single] using hx
        | cons y ys => rw [intercalate_cons_cons]; simp
  · simp

theorem renderPath_eq_intercalate (r : Bool) (st : List Str) :
    renderPath r st = ['/'].intercalate (renderedComponents r st) := by
  unfold renderPath renderedComponents
  by_cases hst : st = []
  · subst hst
    cases r <;> simp [List.intercalate, List.intersperse]
  · simp only [hst, if_false]
    cases r
    · simp
    · simp only [if_true, List.singleton_append]
      cases hrev : st.reverse with
      | nil => simp at hrev; exact absurd hrev hst
      | cons x xs => rw [intercalate_cons_cons]; simp

theorem renderedComponents_ne_nil (r : Bool) (st : List Str) : renderedComponents r st ≠ [] := by
  unfold renderedComponents
  by_cases hst : st = []
  · cases r <;> simp [hst]
  · cases r <;> simp [hst]

theorem pathComponents_renderPath (r : Bool) (st : List Str) (h : NormalStack r st) :
    pathComponents (renderPath r st) = renderedComponents r st := by
  rw [renderPath_eq_intercalate]
  unfold pathComponents
  apply List.splitOn_intercalate
  · intro l hl
    unfold renderedComponents at hl
    by_cases hst : st = []
    · cases r <;> simp [hst] at hl
      · subst hl; decide
      · subst hl; simp
    · have hns := normalStack_no_sep r st h
      cases r <;> simp [hst] at hl
      · exact hns l hl
      · rcases hl with rfl | hl
        · simp
        · exact hns l hl
  · exact renderedComponents_ne_nil r st

theorem cleanStack_renderedComponents (r : Bool) (st : List Str) (h : NormalStack r st) :
    cleanStack r (renderedComponents r st) = st := by
  unfold renderedComponents
  by_cases hst : st = []
  · subst hst
    cases r <;> simp [cleanStack, cleanStep]
  · simp only [hst, if_false]
    rw [cleanStack_append]
    have : cleanStack r (if r then [[]] else []) = [] := by
      cases r <;> simp [cleanStack, cleanStep]
    rw [this]
    exact foldl_cleanStep_reverse r st h

theorem isRooted_renderPath (r : Bool) (st : List Str) (h : NormalStack r st) :
    isRooted (renderPath r st) = r := by
  cases r
  · unfold renderPath
    simp only [Bool.false_eq_true, if_false]
    split
    · decide
    · rename_i hst
      cases hrev : st.reverse with
      | nil => simp at hrev; exact absurd hrev hst
      | cons x xs =>
        have hmem : x ∈ st := by
          have : x ∈ st.reverse := by rw [hrev]; exact List.mem_cons_self _ _
          simpa using this
        have hx : x ≠ [] := normalStack_ne_nil false st h x hmem
        have hs : '/' ∉ x := normalStack_no_sep false st h x hmem
        cases x with
        | nil => exact absurd rfl hx
        | cons a x' =>
          have ha : a ≠ '/' := by
            intro e; apply hs; simp [e]
          cases xs with
          | nil => simp [intercalate_single, isRooted, ha]
          | cons y ys => rw [intercalate_cons_cons]; simp [isRooted, ha]
  · simp [renderPath, isRooted]

/-- A cleaned path is the rendering of a normal stack. -/
theorem Clean_eq_render (p : Str) :
    ∃ r st, NormalStack r st ∧ Clean p = renderPath r st := by
  unfold Clean
  by_cases hp : p = []
  · exact ⟨false, [], trivial, by simp [hp, renderPath]⟩
  · exact ⟨isRooted p, _, cleanStack_normal _ p, by simp [hp]⟩

/-- `Clean` leaves a rendered path as it is. -/
theorem Clean_renderPath (r : Bool) (st : List Str) (h : NormalStack r st) :
    Clean (renderPath r st) = renderPath r st := by
  unfold Clean
  rw [if_neg (renderPath_ne_nil r st h), isRooted_renderPath r st h,
    pathComponents_renderPath r st h, cleanStack_renderedComponents r st h]

/-- Cleaning a rendered path followed by one more element. -/
theorem Clean_render_append (r : Bool) (st : List Str) (b : Str) (h : NormalStack r st)
    (hb : '/' ∉ b) : Clean (renderPath r st ++ '/' :: b) = renderPath r (cleanStep r st b) := by
  have hne := renderPath_ne_nil r st h
  have hroot : isRooted (renderPath r st ++ '/' :: b) = r := by
    have := isRooted_renderPath r st h
    cases hrp : renderPath r st with
    | nil => exact absurd hrp hne
    | cons a as => rw [hrp] at this; simpa [isRooted] using this
  unfold Clean
  rw [if_neg (by simp), hroot, pathComponents_append_sep, pathComponents_renderPath r st h,
    pathComponents_no_sep_self b hb, cleanStack_append, cleanStack_renderedComponents r st h]
  rfl

/-! ### `Dir` and `Base` -/

theorem Dir_no_sep (p : Str) (h : '/' ∉ p) : Dir p = ['.'] := by
  unfold Dir
  rw [rdropWhile_no_sep p h]
  rfl

theorem Dir_last_sep (x y : Str) (h : '/' ∉ y) :
    Dir (x ++ '/' :: y) =
      renderPath (isRooted (x ++ ['/'])) (cleanStack (isRooted (x ++ ['/'])) (pathComponents x)) := by
  unfold Dir
  rw [rdropWhile_last_sep x y h]
  unfold Clean
  rw [if_neg (by simp)]
  have : pathComponents (x ++ ['/']) = pathComponents x ++ [[]] := by
    rw [pathComponents_append_sep]; rfl
  rw [this, cleanStack_append]
  simp [cleanStep_nil]

/-- The text of a rendered path with its last element split off. -/
theorem renderPath_cons (r : Bool) (t : Str) (rest : List Str) (h : r = true ∨ rest ≠ []) :
    renderPath r (t :: rest) = (if rest = [] then [] else renderPath r rest) ++ '/' :: t := by
  unfold renderPath
  by_cases hrest : rest = []
  · subst hrest
    rcases h with h | h
    · subst h; simp [intercalate_single]
    · exact absurd rfl h
  · have hrev : rest.reverse ≠ [] := by simpa using hrest
    simp only [hrest, if_false, List.reverse_cons, reduceCtorEq]
    rw [intercalate_concat _ _ hrev]
    cases r <;> simp

theorem renderPath_single (t : Str) : renderPath false [t] = t := by
  simp [renderPath, intercalate_single]

/-- On a cleaned path `Dir` drops the last element. -/
theorem Dir_renderPath (r : Bool) (st : List Str) (h : NormalStack r st) :
    Dir (renderPath r st) = renderPath r st.tail := by
  cases st with
  | nil => cases r <;> decide
  | cons t rest =>
    have ht : '/' ∉ t := normalStack_no_sep r _ h t (List.mem_cons_self _ _)
    have hrestN := normalStack_tail r t rest h
    by_cases hc : r = true ∨ rest ≠ []
    · rw [renderPath_cons r t rest hc]
      unfold Dir
      rw [rdropWhile_last_sep _ _ ht]
      by_cases hrest : rest = []
      · subst hrest
        rcases hc with hc | hc
        · subst hc
          simp only [if_true, List.nil_append, List.tail_cons]
          decide
        · exact absurd rfl hc
      · simp only [hrest, if_false, List.tail_cons]
        have := Clean_render_append r rest [] hrestN (by simp)
        rw [cleanStep_nil] at this
        exact this
    · have hr : r = false := by
        cases r
        · rfl
        · exact absurd (Or.inl rfl) hc
      have hrest : rest = [] := by
        by_contra hne
        exact hc (Or.inr hne)
      subst hr; subst hrest
      rw [renderPath_single, Dir_no_sep t ht]
      rfl

theorem Base_suffix (x t : Str) (ht : t ≠ []) (hs : '/' ∉ t) (hx : x = [] ∨ ∃ x', x = x' ++ ['/']) :
    Base (x ++ t) = t := by
  unfold Base
  have hne : x ++ t ≠ [] := by simp [ht]
  rw [if_neg hne]
  have h1 : (x ++ t).rdropWhile (fun c => c == '/') = x ++ t := by
    rcases List.eq_nil_or_concat t with e | ⟨t', a, e⟩
    · exact absurd e ht
    · subst e
      have ha : a ≠ '/' := by
        intro e; apply hs; simp [e]
      rw [List.concat_eq_append, ← List.append_assoc]
      exact List.rdropWhile_concat_neg _ _ _ (by simpa using ha)
  simp only [h1]
  have h2 : (x ++ t).rtakeWhile (fun c => c != '/') = t := by
    rcases hx with rfl | ⟨x', rfl⟩
    · simpa using rtakeWhile_no_sep t hs
    · have : x' ++ ['/'] ++ t = x' ++ '/' :: t := by simp
      rw [this]
      exact rtakeWhile_last_sep x' t hs
  rw [h2, if_neg ht]

/-- On a cleaned path `Base` is the last element. -/
theorem Base_renderPath (r : Bool) (t : Str) (rest : List Str) (h : NormalStack r (t :: rest)) :
    Base (renderPath r (t :: rest)) = t := by
  have hs : '/' ∉ t := normalStack_no_sep r _ h t (List.mem_cons_self _ _)
  have hne : t ≠ [] := normalStack_ne_nil r _ h t (List.mem_cons_self _ _)
  by_cases hc : r = true ∨ rest ≠ []
  · rw [renderPath_cons r t rest hc]
    have : (if rest = [] then [] else renderPath r rest) ++ '/' :: t
        = ((if rest = [] then [] else renderPath r rest) ++ ['/']) ++ t := by simp
    rw [this]
    exact Base_suffix _ t hne hs (Or.inr ⟨_, rfl⟩)
  · have hr : r = false := by
      cases r
      · rfl
      · exact absurd (Or.inl rfl) hc
    have hrest : rest = [] := by
      by_contra hne'
      exact hc (Or.inr hne')
    subst hr; subst hrest
    rw [renderPath_single]
    simpa using Base_suffix [] t hne hs (Or.inl rfl)

/-! ### The chain of `Dir` ends -/

theorem dirMeasure_le (f : Str) : dirMeasure f ≤ f.length + 2 := by
  unfold dirMeasure
  have := pathComponents_length_le f
  split <;> omega

theorem dirMeasure_root : dirMeasure ['/'] = 2 := by decide

theorem dirMeasure_dot : dirMeasure ['.'] = 1 := by decide

theorem dirMeasure_Dir_lt (f : Str) (h : Dir f ≠ f) : dirMeasure (Dir f) < dirMeasure f := by
  have hf : dirMeasure f = (pathComponents f).length + 1 := by simp [dirMeasure, h]
  rcases path_cases f with hns | ⟨x, y, rfl, hy⟩
  · rw [Dir_no_sep f hns, dirMeasure_dot, hf]
    have := pathComponents_ne_nil f
    cases hp : pathComponents f with
    | nil => exact absurd hp this
    | cons a as => simp
  · rw [hf, pathComponents_append_sep, pathComponents_no_sep_self y hy, Dir_last_sep x y hy]
    generalize hr : isRooted (x ++ ['/']) = r
    have hN : NormalStack r (cleanStack r (pathComponents x)) := cleanStack_normal r x
    generalize hst : cleanStack r (pathComponents x) = st at hN
    have hfix : Dir (renderPath r st.tail) = renderPath r st.tail.tail := by
      cases st with
      | nil => exact Dir_renderPath r [] trivial
      | cons t rest => exact Dir_renderPath r rest (normalStack_tail r t rest hN)
    unfold dirMeasure
    rw [Dir_renderPath r st hN, pathComponents_renderPath r st hN]
    simp only [List.length_append, List.length_singleton]
    cases st with
    | nil =>
      have hd : renderPath r ([] : List Str).tail = renderPath r [] := rfl
      rw [hd, if_pos rfl]
      have hx := pathComponents_ne_nil x
      cases r
      · simp [renderedComponents]
      · simp only [renderedComponents, if_true, List.length_cons, List.length_nil]
        cases hp : pathComponents x with
        | nil => exact absurd hp hx
        | cons a as => simp
    | cons t rest =>
      have hlen : (t :: rest).length ≤ (pathComponents x).length - (if r then 1 else 0) := by
        rw [← hst]
        cases r
        · simpa using cleanStack_length_le false (pathComponents x)
        · cases x with
          | nil => simp [isRooted] at hr ⊢; simp [pathComponents, cleanStack, cleanStep] at hst
          | cons a x' =>
            have ha : a = '/' := by simpa [isRooted] using hr
            subst ha
            rw [pathComponents_cons_sep]
            have : cleanStack true ([] :: pathComponents x') = cleanStack true (pathComponents x') := by
              simp [cleanStack, cleanStep]
            rw [this]
            simpa using cleanStack_length_le true (pathComponents x')
      have hlen2 : (renderedComponents r (t :: rest)).length
          = (t :: rest).length + (if r then 1 else 0) := by
        unfold renderedComponents
        cases r <;> simp
      rw [hlen2]
      have hpos : 0 < (pathComponents x).length := by
        cases hp : pathComponents x with
        | nil => exact absurd hp (pathComponents_ne_nil x)
        | cons a as => simp
      cases r
      · simp only [Bool.false_eq_true, if_false] at hlen ⊢
        split <;> omega
      · simp only [if_true] at hlen ⊢
        have : 1 ≤ (t :: rest).length := by simp
        split <;> omega

theorem Clean_ne_nil (p : Str) : Clean p ≠ [] := by
  obtain ⟨r, st, hN, h⟩ := Clean_eq_render p
  rw [h]
  exact renderPath_ne_nil r st hN

theorem Dir_ne_nil (p : Str) : Dir p ≠ [] := Clean_ne_nil _

theorem dirMeasure_iterate_le (k : Nat) (f : Str) :
    dirMeasure (Nat.iterate Dir k f) ≤ dirMeasure f := by
  induction k generalizing f with
  | zero => exact Nat.le_refl _
  | succ k ih =>
    rw [Function.iterate_succ_apply]
    by_cases h : Dir f = f
    · rw [h]; exact ih f
    · exact Nat.le_trans (ih (Dir f)) (Nat.le_of_lt (dirMeasure_Dir_lt f h))

theorem iterate_Dir_fixed (k : Nat) (f : Str) (h : Dir f = f) : Nat.iterate Dir k f = f := by
  induction k with
  | zero => rfl
  | succ k ih => rw [Function.iterate_succ_apply, h, ih]

theorem inWhiteoutDirLoop_iff (fileMap : FileMap) (fuel : Nat) (file : Str)
    (hfuel : dirMeasure file < fuel) :
    inWhiteoutDirLoop fileMap fuel file = true ↔
      ∃ a, ProperAncestor a file ∧ fileMap.lookup a = some true := by
  induction fuel generalizing file with
  | zero => exact absurd hfuel (Nat.not_lt_zero _)
  | succ fuel ih =>
    unfold inWhiteoutDirLoop
    by_cases hnil : file = []
    · simp only [hnil, if_true, Bool.false_eq_true, false_iff]
      rintro ⟨a, ⟨h, _⟩, _⟩
      exact h rfl
    · simp only [hnil, if_false]
      by_cases hfix : file = Dir file
      · simp only [← hfix, if_true, Bool.false_eq_true, false_iff]
        rintro ⟨a, ⟨_, hne, k, _, hk⟩, _⟩
        rw [iterate_Dir_fixed k file hfix.symm] at hk
        exact hne hk.symm
      · simp only [hfix, if_false]
        have hlt := dirMeasure_Dir_lt file (fun e => hfix e.symm)
        by_cases hlook : List.lookup (Dir file) fileMap = some true
        · simp only [hlook, if_true, true_iff]
          exact ⟨Dir file, ⟨hnil, fun e => hfix e.symm, 1, Nat.one_pos, rfl⟩, hlook⟩
        · simp only [hlook, if_false]
          rw [ih (Dir file) (by omega)]
          constructor
          · rintro ⟨a, ⟨_, _, k, _, hk⟩, ha⟩
            refine ⟨a, ⟨hnil, ?_, k + 1, Nat.succ_pos _, ?_⟩, ha⟩
            · intro e
              have := dirMeasure_iterate_le k (Dir file)
              rw [hk, e] at this
              omega
            · rw [Function.iterate_succ_apply]; exact hk
          · rintro ⟨a, ⟨_, _, k, hk0, hk⟩, ha⟩
            cases k with
            | zero => exact absurd hk0 (Nat.lt_irrefl _)
            | succ k =>
              rw [Function.iterate_succ_apply] at hk
              cases k with
              | zero =>
                simp only [Function.iterate_zero, id_eq] at hk
                rw [hk] at hlook
                exact absurd ha hlook
              | succ k =>
                refine ⟨a, ⟨Dir_ne_nil file, ?_, k + 1, Nat.succ_pos _, hk⟩, ha⟩
                intro e
                rw [e] at ha
                exact hlook ha

/-- The loop bound of `inWhiteoutDir` is never reached: the function returns
true exactly when a proper ancestor is mapped to true. -/
theorem inWhiteoutDir_iff (fileMap : FileMap) (file : Str) :
    inWhiteoutDir fileMap file = true ↔
      ∃ a, ProperAncestor a file ∧ fileMap.lookup a = some true := by
  unfold inWhiteoutDir
  apply inWhiteoutDirLoop_iff
  have := dirMeasure_le file
  omega

/-! ### The logical path and the output name -/

theorem Join_pair (d b : Str) (hd : d ≠ []) : Join [d, b] = Clean (d ++ '/' :: b) := by
  simp [Join, hd, intercalate_cons_cons, intercalate_single]

/-- The logical path of an entry that is no whiteout marker is its cleaned name. -/
theorem logicalName_of_not_tombstone (h : Str) (ht : isTombstone h = false) :
    logicalName h = Clean h := by
  unfold logicalName
  unfold isTombstone at ht
  simp only [ht, Bool.false_eq_true, if_false]
  obtain ⟨r, st, hN, hc⟩ := Clean_eq_render h
  rw [hc]
  cases st with
  | nil => cases r <;> decide
  | cons t rest =>
    rw [Dir_renderPath r _ hN, Base_renderPath r t rest hN, List.tail_cons,
      Join_pair _ _ (renderPath_ne_nil r rest (normalStack_tail r t rest hN)),
      Clean_render_append r rest t (normalStack_tail r t rest hN)
        (normalStack_no_sep r _ hN t (List.mem_cons_self _ _)),
      cleanStep_top r t rest hN]

theorem cleanStep_mem (r : Bool) (st : List Str) (c x : Str) (hx : x ∈ cleanStep r st c) :
    x ∈ st ∨ x = c := by
  unfold cleanStep at hx
  split at hx
  · exact Or.inl hx
  · split at hx
    · rename_i hc
      cases st with
      | nil =>
        cases r
        · simp at hx; exact Or.inr (hx.trans hc.symm)
        · simp at hx
      | cons t rest =>
        simp only at hx
        split at hx
        · split at hx
          · exact Or.inl hx
          · rcases List.mem_cons.1 hx with e | hx
            · exact Or.inr (e.trans hc.symm)
            · exact Or.inl hx
        · exact Or.inl (List.mem_cons_of_mem _ hx)
    · rcases List.mem_cons.1 hx with e | hx
      · exact Or.inr e
      · exact Or.inl hx

theorem foldl_cleanStep_mem (r : Bool) (cs st : List Str) (x : Str)
    (hx : x ∈ cs.foldl (cleanStep r) st) : x ∈ st ∨ x ∈ cs := by
  induction cs generalizing st with
  | nil => exact Or.inl hx
  | cons c cs ih =>
    rcases ih _ hx with h | h
    · rcases cleanStep_mem r st c x h with h | h
      · exact Or.inl h
      · exact Or.inr (h ▸ List.mem_cons_self _ _)
    · exact Or.inr (List.mem_cons_of_mem _ h)

theorem cleanStep_real (r : Bool) (st : List Str) (c : Str) (h : RealElem c) :
    cleanStep r st c = c :: st := by
  have h1 : ¬ (c = [] ∨ c = ['.']) := by
    rintro (e | e)
    · exact h.1 e
    · exact h.2.1 e
  simp [cleanStep, h1, h.2.2.1]

/-- The last element of the output name `rootfs/<cleaned name>`: the last
element of the cleaned name when that is a proper element, otherwise one of
`rootfs`, `..`, `.`. -/
theorem Base_rootfs_name (h : Str) :
    Base (Join ["rootfs".toList, Clean h]) = Base (Clean h) ∨
      Base (Join ["rootfs".toList, Clean h]) = "rootfs".toList ∨
      Base (Join ["rootfs".toList, Clean h]) = dotdot ∨
      Base (Join ["rootfs".toList, Clean h]) = ['.'] := by
  obtain ⟨r, st, hN, hc⟩ := Clean_eq_render h
  rw [hc]
  cases st with
  | nil => cases r <;> decide
  | cons t rest =>
    rw [Join_pair _ _ (by decide)]
    have hroot : isRooted ("rootfs".toList ++ '/' :: renderPath r (t :: rest)) = false := rfl
    have hcomp : pathComponents ("rootfs".toList ++ '/' :: renderPath r (t :: rest))
        = ["rootfs".toList] ++ renderedComponents r (t :: rest) := by
      rw [pathComponents_append_sep, pathComponents_renderPath r _ hN]
      rfl
    unfold Clean
    rw [if_neg (by simp [String.toList]), hroot, hcomp]
    have hrc : renderedComponents r (t :: rest)
        = ((if r then [[]] else []) ++ rest.reverse) ++ [t] := by
      simp [renderedComponents]
    rw [hrc, ← List.append_assoc, cleanStack_append]
    simp only [List.foldl_cons, List.foldl_nil]
    generalize hst0 : cleanStack false (["rootfs".toList] ++ ((if r then [[]] else []) ++ rest.reverse)) = st0
    have hN0 : NormalStack false st0 := by
      rw [← hst0]
      apply foldl_cleanStep_normal false _ [] trivial
      intro c hc
      have hns := normalStack_no_sep r _ hN
      simp only [List.singleton_append, List.mem_cons, List.mem_append, List.mem_reverse] at hc
      rcases hc with rfl | hc | hc
      · decide
      · cases r <;> simp at hc
        subst hc; simp
      · exact hns c (List.mem_cons_of_mem _ hc)
    have hmem0 : ∀ x ∈ st0, x = "rootfs".toList ∨ x ∈ rest ∨ x = [] := by
      intro x hx
      rw [← hst0] at hx
      rcases foldl_cleanStep_mem false _ [] x hx with hx | hx
      · simp at hx
      · simp only [List.singleton_append, List.mem_cons, List.mem_append, List.mem_reverse] at hx
        rcases hx with rfl | hx | hx
        · exact Or.inl rfl
        · cases r <;> simp at hx
          exact Or.inr (Or.inr hx)
        · exact Or.inr (Or.inl hx)
    have hts : '/' ∉ t := normalStack_no_sep r _ hN t (List.mem_cons_self _ _)
    have hN1 : NormalStack false (cleanStep false st0 t) := cleanStep_normal false st0 t hN0 hts
    rcases hN with ⟨hreal, _⟩ | ⟨htd, hr, hdots⟩
    · left
      rw [cleanStep_real false st0 t hreal] at hN1 ⊢
      rw [Base_renderPath false t st0 hN1, Base_renderPath r t rest (Or.inl ⟨hreal, by assumption⟩)]
    · right
      -- the cleaned name consists of `..` elements only
      have hall : ∀ x ∈ cleanStep false st0 t, x = "rootfs".toList ∨ x = dotdot := by
        intro x hx
        rcases cleanStep_mem false st0 t x hx with hx | hx
        · rcases hmem0 x hx with h1 | h1 | h1
          · exact Or.inl h1
          · exact Or.inr (hdots x h1)
          · exact absurd h1 (normalStack_ne_nil false st0 hN0 x hx)
        · exact Or.inr (hx.trans htd)
      cases hres : cleanStep false st0 t with
      | nil => right; right; decide
      | cons u us =>
        rw [hres] at hN1 hall
        rw [Base_renderPath false u us hN1]
        rcases hall u (List.mem_cons_self _ _) with h1 | h1
        · exact Or.inl h1
        · exact Or.inr (Or.inl h1)

/-- No entry that is no whiteout marker gets an output name whose last element
begins with the whiteout prefix. -/
theorem rootfs_name_not_whiteout (h : Str) (ht : isTombstone h = false) :
    stringsHasPrefix (Base (Join ["rootfs".toList, Clean h])) whiteoutPrefix = false := by
  rcases Base_rootfs_name h with e | e | e | e
  · rw [e]; exact ht
  · rw [e]; decide
  · rw [e]; decide
  · rw [e]; decide

/-! ### The flattener -/

theorem MapLe.refl (m : FileMap) : MapLe m m := fun _ _ h => h

theorem MapLe.trans {m1 m2 m3 : FileMap} (h1 : MapLe m1 m2) (h2 : MapLe m2 m3) : MapLe m1 m3 :=
  fun k v h => h2 k v (h1 k v h)

theorem MapLe.cons (m : FileMap) (p : Str) (v : Bool) (h : m.lookup p = none) :
    MapLe m ((p, v) :: m) := by
  intro k w hk
  rw [List.lookup_cons]
  by_cases e : k = p
  · subst e; rw [h] at hk; exact absurd hk (by simp)
  · have : (k == p) = false := by simpa using e
    rw [this]; exact hk

theorem inWhiteoutDirLoop_mono {m1 m2 : FileMap} (h : MapLe m1 m2) (fuel : Nat) (f : Str)
    (hb : inWhiteoutDirLoop m1 fuel f = true) : inWhiteoutDirLoop m2 fuel f = true := by
  induction fuel generalizing f with
  | zero => simp [inWhiteoutDirLoop] at hb
  | succ fuel ih =>
    unfold inWhiteoutDirLoop at hb ⊢
    by_cases hnil : f = []
    · simp [hnil] at hb
    · simp only [hnil, if_false] at hb ⊢
      by_cases hfix : f = Dir f
      · rw [if_pos hfix] at hb; exact absurd hb (by simp)
      · rw [if_neg hfix] at hb ⊢
        by_cases hl : List.lookup (Dir f) m1 = some true
        · rw [if_pos (h _ _ hl)]
        · rw [if_neg hl] at hb
          by_cases hl2 : List.lookup (Dir f) m2 = some true
          · rw [if_pos hl2]
          · rw [if_neg hl2]; exact ih _ hb

theorem blocked_mono {m1 m2 : FileMap} (h : MapLe m1 m2) (p : Str) (hb : blocked m1 p = true) :
    blocked m2 p = true := by
  unfold blocked at hb ⊢
  rw [Bool.or_eq_true] at hb ⊢
  rcases hb with hb | hb
  · left
    cases hl : m1.lookup p with
    | none => rw [hl] at hb; simp at hb
    | some v => rw [h _ _ hl]; rfl
  · right
    exact inWhiteoutDirLoop_mono h _ _ hb

theorem blocked_of_ancestor (m : FileMap) (a p : Str) (ha : m.lookup a = some true)
    (hp : ProperAncestor a p) : blocked m p = true := by
  unfold blocked
  rw [Bool.or_eq_true]
  right
  exact (inWhiteoutDir_iff m p).2 ⟨a, hp, ha⟩

theorem writeTarFile_skip (accept : Header → Bool) (tw : TarWriter) (m : FileMap) (hd : Header)
    (c : Str) (h : blocked m (logicalName hd.Name) = true) :
    writeTarFile accept tw m hd c = ⟨tw, m, none⟩ := by
  unfold blocked at h
  rw [Bool.or_eq_true] at h
  unfold writeTarFile
  rcases h with h | h
  · simp [h]
  · simp only [h, if_true]
    split <;> rfl

theorem writeTarFile_fileMap (accept : Header → Bool) (tw : TarWriter) (m : FileMap) (hd : Header)
    (c : Str) (h : blocked m (logicalName hd.Name) = false) :
    (writeTarFile accept tw m hd c).fileMap =
      (logicalName hd.Name, isTombstone hd.Name || !(hd.Typeflag == TypeDir)) :: m := by
  unfold blocked at h
  rw [Bool.or_eq_false_iff] at h
  unfold writeTarFile
  simp only [h.1, h.2, Bool.false_eq_true, if_false]
  split
  · split
    · rfl
    · split
      · split
        · rfl
        · split <;> rfl
      · rfl
  · rfl

theorem writeTarFile_mapLe (accept : Header → Bool) (tw : TarWriter) (m : FileMap) (hd : Header)
    (c : Str) : MapLe m (writeTarFile accept tw m hd c).fileMap := by
  cases h : blocked m (logicalName hd.Name) with
  | true => rw [writeTarFile_skip accept tw m hd c h]; exact MapLe.refl m
  | false =>
    rw [writeTarFile_fileMap accept tw m hd c h]
    apply MapLe.cons
    unfold blocked at h
    rw [Bool.or_eq_false_iff] at h
    cases hl : List.lookup (logicalName hd.Name) m with
    | none => rfl
    | some v => rw [hl] at h; simp at h

theorem writeTarFile_blocked (accept : Header → Bool) (tw : TarWriter) (m : FileMap)
    (hd : Header) (c : Str) :
    blocked (writeTarFile accept tw m hd c).fileMap (logicalName hd.Name) = true := by
  cases h : blocked m (logicalName hd.Name) with
  | true => rw [writeTarFile_skip accept tw m hd c h]; exact h
  | false =>
    rw [writeTarFile_fileMap accept tw m hd c h]
    simp [blocked, List.lookup_cons]

/-- What `writeTarFile` appends to the tar stream. -/
theorem writeTarFile_tw (accept : Header → Bool) (tw : TarWriter) (m : FileMap) (hd : Header)
    (c : Str) :
    (writeTarFile accept tw m hd c).tw = tw ∨
      (isTombstone hd.Name = false ∧ blocked m (logicalName hd.Name) = false ∧
        ∃ data, (writeTarFile accept tw m hd c).tw = tw ++ [⟨rootfsHeader hd, data⟩]) := by
  cases h : blocked m (logicalName hd.Name) with
  | true => left; rw [writeTarFile_skip accept tw m hd c h]
  | false =>
    unfold blocked at h
    rw [Bool.or_eq_false_iff] at h
    unfold writeTarFile
    simp only [h.1, h.2, Bool.false_eq_true, if_false]
    cases ht : isTombstone hd.Name with
    | true => left; simp
    | false =>
      simp only [Bool.not_false, if_true]
      split
      · left; rfl
      · right
        refine ⟨by trivial, by trivial, ?_⟩
        split
        · split
          · exact ⟨_, rfl⟩
          · split
            · exact ⟨_, rfl⟩
            · exact ⟨_, rfl⟩
        · exact ⟨_, rfl⟩

theorem writeEntries_cons (accept : Header → Bool) (tw : TarWriter) (m : FileMap) (e : TarEntry)
    (es : List TarEntry) :
    writeEntries accept tw m (e :: es) =
      if (writeTarFile accept tw m e.hdr e.data).err.isSome then writeTarFile accept tw m e.hdr e.data
      else writeEntries accept (writeTarFile accept tw m e.hdr e.data).tw
        (writeTarFile accept tw m e.hdr e.data).fileMap es := rfl

theorem writeLayers_cons (accept : Header → Bool) (tw : TarWriter) (m : FileMap) (l : Layer)
    (ls : List Layer) :
    writeLayers accept tw m (l :: ls) =
      if (writeLayer accept tw m l).err.isSome then writeLayer accept tw m l
      else writeLayers accept (writeLayer accept tw m l).tw (writeLayer accept tw m l).fileMap ls :=
  rfl

theorem writeEntries_mapLe (accept : Header → Bool) (es : List TarEntry) (tw : TarWriter)
    (m : FileMap) : MapLe m (writeEntries accept tw m es).fileMap := by
  induction es generalizing tw m with
  | nil => exact MapLe.refl m
  | cons e es ih =>
    unfold writeEntries
    have h1 := writeTarFile_mapLe accept tw m e.hdr e.data
    simp only
    split
    · exact h1
    · exact MapLe.trans h1 (ih _ _)

theorem writeLayer_mapLe (accept : Header → Bool) (l : Layer) (tw : TarWriter) (m : FileMap) :
    MapLe m (writeLayer accept tw m l).fileMap := by
  unfold writeLayer
  have h1 := writeEntries_mapLe accept l.entries tw m
  split
  · exact MapLe.refl m
  · simp only
    split
    · exact h1
    · split
      · exact h1
      · exact h1

theorem writeLayers_mapLe (accept : Header → Bool) (ls : List Layer) (tw : TarWriter)
    (m : FileMap) : MapLe m (writeLayers accept tw m ls).fileMap := by
  induction ls generalizing tw m with
  | nil => exact MapLe.refl m
  | cons l ls ih =>
    unfold writeLayers
    have h1 := writeLayer_mapLe accept l tw m
    simp only
    split
    · exact h1
    · exact MapLe.trans h1 (ih _ _)

/-- An entry whose logical path is blocked contributes nothing to its layer. -/
theorem writeEntries_erase (accept : Header → Bool) (pre post : List TarEntry) (e : TarEntry)
    (tw : TarWriter) (m : FileMap) (h : blocked m (logicalName e.hdr.Name) = true) :
    writeEntries accept tw m (pre ++ e :: post) = writeEntries accept tw m (pre ++ post) := by
  induction pre generalizing tw m with
  | nil =>
    simp only [List.nil_append]
    conv => lhs; unfold writeEntries
    rw [writeTarFile_skip accept tw m e.hdr e.data h]
    rfl
  | cons a pre ih =>
    simp only [List.cons_append]
    unfold writeEntries
    simp only
    split
    · rfl
    · exact ih _ _ (blocked_mono (writeTarFile_mapLe accept tw m a.hdr a.data) _ h)

/-- After an entry has been processed, a later entry of the same layer with the
same logical path contributes nothing. -/
theorem writeEntries_dup (accept : Header → Bool) (pre mid post : List TarEntry)
    (e1 e2 : TarEntry) (tw : TarWriter) (m : FileMap)
    (h : logicalName e2.hdr.Name = logicalName e1.hdr.Name) :
    writeEntries accept tw m (pre ++ e1 :: (mid ++ e2 :: post)) =
      writeEntries accept tw m (pre ++ e1 :: (mid ++ post)) := by
  induction pre generalizing tw m with
  | nil =>
    simp only [List.nil_append]
    unfold writeEntries
    simp only
    split
    · rfl
    · apply writeEntries_erase
      rw [h]
      exact writeTarFile_blocked accept tw m e1.hdr e1.data
  | cons a pre ih =>
    simp only [List.cons_append]
    unfold writeEntries
    simp only
    split
    · rfl
    · exact ih _ _

/-- When the entries of a layer were processed without error, each of their
logical paths is blocked afterwards. -/
theorem writeEntries_blocked (accept : Header → Bool) (es : List TarEntry) (tw : TarWriter)
    (m : FileMap) (e : TarEntry) (he : e ∈ es)
    (hok : (writeEntries accept tw m es).err = none) :
    blocked (writeEntries accept tw m es).fileMap (logicalName e.hdr.Name) = true := by
  induction es generalizing tw m with
  | nil => simp at he
  | cons a es ih =>
    unfold writeEntries at hok ⊢
    simp only at hok ⊢
    split
    · rename_i herr
      rw [if_pos herr] at hok
      rw [hok] at herr
      simp at herr
    · rename_i herr
      rw [if_neg herr] at hok
      rcases List.mem_cons.1 he with rfl | he
      · exact blocked_mono (writeEntries_mapLe accept es _ _) _
          (writeTarFile_blocked accept tw m e.hdr e.data)
      · exact ih _ _ he hok

theorem writeLayer_erase (accept : Header → Bool) (rd br : Bool) (pre post : List TarEntry)
    (e : TarEntry) (tw : TarWriter) (m : FileMap)
    (h : blocked m (logicalName e.hdr.Name) = true) :
    writeLayer accept tw m ⟨rd, pre ++ e :: post, br⟩ =
      writeLayer accept tw m ⟨rd, pre ++ post, br⟩ := by
  unfold writeLayer
  simp only
  rw [writeEntries_erase accept pre post e tw m h]

theorem writeLayer_dup (accept : Header → Bool) (rd br : Bool) (pre mid post : List TarEntry)
    (e1 e2 : TarEntry) (tw : TarWriter) (m : FileMap)
    (h : logicalName e2.hdr.Name = logicalName e1.hdr.Name) :
    writeLayer accept tw m ⟨rd, pre ++ e1 :: (mid ++ e2 :: post), br⟩ =
      writeLayer accept tw m ⟨rd, pre ++ e1 :: (mid ++ post), br⟩ := by
  unfold writeLayer
  simp only
  rw [writeEntries_dup accept pre mid post e1 e2 tw m h]

theorem writeLayer_blocked (accept : Header → Bool) (l : Layer) (tw : TarWriter) (m : FileMap)
    (e : TarEntry) (he : e ∈ l.entries) (hok : (writeLayer accept tw m l).err = none) :
    blocked (writeLayer accept tw m l).fileMap (logicalName e.hdr.Name) = true := by
  unfold writeLayer at hok ⊢
  split
  · rename_i hr
    rw [if_pos hr] at hok
    simp at hok
  · rename_i hr
    rw [if_neg hr] at hok
    simp only at hok ⊢
    split
    · rename_i herr
      rw [if_pos herr] at hok
      rw [hok] at herr
      simp at herr
    · rename_i herr
      rw [if_neg herr] at hok
      have hb := writeEntries_blocked accept l.entries tw m e he (by
        cases hx : (writeEntries accept tw m l.entries).err with
        | none => rfl
        | some x => rw [hx] at herr; simp at herr)
      split
      · exact hb
      · exact hb

theorem writeLayers_append (accept : Header → Bool) (l1 l2 : List Layer) (tw : TarWriter)
    (m : FileMap) :
    writeLayers accept tw m (l1 ++ l2) =
      if (writeLayers accept tw m l1).err.isSome then writeLayers accept tw m l1
      else writeLayers accept (writeLayers accept tw m l1).tw (writeLayers accept tw m l1).fileMap l2 := by
  induction l1 generalizing tw m with
  | nil => simp [writeLayers]
  | cons l l1 ih =>
    simp only [List.cons_append, writeLayers_cons]
    split
    · rename_i herr
      simp [herr]
    · exact ih _ _

/-- From a state in which a logical path is blocked, an entry for that path in
any layer still to be visited contributes nothing. -/
theorem writeLayers_erase (accept : Header → Bool) (l1 l2 : List Layer) (rd br : Bool)
    (pre post : List TarEntry) (e : TarEntry) (tw : TarWriter) (m : FileMap)
    (h : blocked m (logicalName e.hdr.Name) = true) :
    writeLayers accept tw m (l1 ++ ⟨rd, pre ++ e :: post, br⟩ :: l2) =
      writeLayers accept tw m (l1 ++ ⟨rd, pre ++ post, br⟩ :: l2) := by
  rw [writeLayers_append, writeLayers_append]
  split
  · rfl
  · have hb := blocked_mono (writeLayers_mapLe accept l1 tw m) _ h
    rw [writeLayers_cons, writeLayers_cons, writeLayer_erase accept rd br pre post e _ _ hb]

/-- An entry of a layer visited later, with the logical path of an entry
visited earlier, contributes nothing. -/
theorem writeLayers_dup (accept : Header → Bool) (l1 lmid l2 : List Layer) (rd1 br1 rd2 br2 : Bool)
    (pre1 post1 pre2 post2 : List TarEntry) (e1 e2 : TarEntry) (tw : TarWriter) (m : FileMap)
    (h : logicalName e2.hdr.Name = logicalName e1.hdr.Name) :
    writeLayers accept tw m
        (l1 ++ ⟨rd1, pre1 ++ e1 :: post1, br1⟩ :: (lmid ++ ⟨rd2, pre2 ++ e2 :: post2, br2⟩ :: l2)) =
      writeLayers accept tw m
        (l1 ++ ⟨rd1, pre1 ++ e1 :: post1, br1⟩ :: (lmid ++ ⟨rd2, pre2 ++ post2, br2⟩ :: l2)) := by
  rw [writeLayers_append, writeLayers_append]
  split
  · rfl
  · generalize (writeLayers accept tw m l1).tw = tw1
    generalize (writeLayers accept tw m l1).fileMap = m1
    rw [writeLayers_cons, writeLayers_cons]
    split
    · rfl
    · rename_i herr
      apply writeLayers_erase
      rw [h]
      apply writeLayer_blocked accept ⟨rd1, pre1 ++ e1 :: post1, br1⟩ tw1 m1 e1 (by simp)
      cases hx : (writeLayer accept tw1 m1 ⟨rd1, pre1 ++ e1 :: post1, br1⟩).err with
      | none => rfl
      | some x => rw [hx] at herr; simp at herr

/-- Within one layer, a later entry with the logical path of an earlier one
contributes nothing. -/
theorem writeLayers_dup_same (accept : Header → Bool) (l1 l2 : List Layer) (rd br : Bool)
    (pre mid post : List TarEntry) (e1 e2 : TarEntry) (tw : TarWriter) (m : FileMap)
    (h : logicalName e2.hdr.Name = logicalName e1.hdr.Name) :
    writeLayers accept tw m (l1 ++ ⟨rd, pre ++ e1 :: (mid ++ e2 :: post), br⟩ :: l2) =
      writeLayers accept tw m (l1 ++ ⟨rd, pre ++ e1 :: (mid ++ post), br⟩ :: l2) := by
  rw [writeLayers_append, writeLayers_append]
  split
  · rfl
  · rw [writeLayers_cons, writeLayers_cons, writeLayer_dup accept rd br pre mid post e1 e2 _ _ h]

theorem writeTarFile_tombstone (accept : Header → Bool) (tw : TarWriter) (m : FileMap)
    (hd : Header) (c : Str) (h : isTombstone hd.Name = true) :
    (writeTarFile accept tw m hd c).tw = tw ∧ (writeTarFile accept tw m hd c).err = none := by
  unfold writeTarFile
  simp only [h, Bool.not_true, Bool.false_eq_true, if_false]
  split
  · exact ⟨rfl, rfl⟩
  · split
    · exact ⟨rfl, rfl⟩
    · exact ⟨rfl, rfl⟩

theorem writeTarFile_noWhiteout (accept : Header → Bool) (tw : TarWriter) (m : FileMap)
    (hd : Header) (c : Str) (h : NoWhiteoutName tw) :
    NoWhiteoutName (writeTarFile accept tw m hd c).tw := by
  rcases writeTarFile_tw accept tw m hd c with e | ⟨ht, _, data, e⟩
  · rw [e]; exact h
  · rw [e]
    intro w hw
    rcases List.mem_append.1 hw with hw | hw
    · exact h w hw
    · simp only [List.mem_singleton] at hw
      subst hw
      exact rootfs_name_not_whiteout hd.Name ht

theorem writeEntries_noWhiteout (accept : Header → Bool) (es : List TarEntry) (tw : TarWriter)
    (m : FileMap) (h : NoWhiteoutName tw) : NoWhiteoutName (writeEntries accept tw m es).tw := by
  induction es generalizing tw m with
  | nil => exact h
  | cons e es ih =>
    rw [writeEntries_cons]
    have h1 := writeTarFile_noWhiteout accept tw m e.hdr e.data h
    split
    · exact h1
    · exact ih _ _ h1

theorem writeLayer_noWhiteout (accept : Header → Bool) (l : Layer) (tw : TarWriter)
    (m : FileMap) (h : NoWhiteoutName tw) : NoWhiteoutName (writeLayer accept tw m l).tw := by
  unfold writeLayer
  have h1 := writeEntries_noWhiteout accept l.entries tw m h
  split
  · exact h
  · simp only
    split
    · exact h1
    · split
      · exact h1
      · exact h1

theorem writeLayers_noWhiteout (accept : Header → Bool) (ls : List Layer) (tw : TarWriter)
    (m : FileMap) (h : NoWhiteoutName tw) : NoWhiteoutName (writeLayers accept tw m ls).tw := by
  induction ls generalizing tw m with
  | nil => exact h
  | cons l ls ih =>
    rw [writeLayers_cons]
    have h1 := writeLayer_noWhiteout accept l tw m h
    split
    · exact h1
    · exact ih _ _ h1

theorem writeHostFile_noWhiteout (accept : Header → Bool) (tw : TarWriter) (m : FileMap)
    (dst : Str) (src : Option Str) (mode : Int) (h : NoWhiteoutName tw) :
    NoWhiteoutName (writeHostFile accept tw m dst src mode).tw := by
  unfold writeHostFile
  cases src with
  | none => exact h
  | some file => exact writeTarFile_noWhiteout accept tw m _ _ h

theorem writeMetadata_noWhiteout (host : Host) (tw : TarWriter) (m : FileMap) (name : Str)
    (cf : ConfigFile) (h : NoWhiteoutName tw) :
    NoWhiteoutName (writeMetadata host tw m name cf).tw := by
  unfold writeMetadata
  simp only
  split
  · exact h
  · split
    · exact h
    · intro w hw
      rcases List.mem_append.1 hw with hw | hw
      · exact h w hw
      · simp only [List.mem_singleton] at hw
        subst hw
        show stringsHasPrefix (Base "metadata.yaml".toList) whiteoutPrefix = false
        decide

theorem writePreamble_noWhiteout (host : Host) (name : Str) (cf : ConfigFile) :
    NoWhiteoutName (writePreamble host name cf).tw := by
  unfold writePreamble
  have h0 : NoWhiteoutName ([] : TarWriter) := by intro w hw; simp at hw
  have h1 := writeHostFile_noWhiteout host.accept [] [] "/busybox-lxd".toList host.busybox 0o755 h0
  simp only
  split
  · exact h1
  · have h2 := writeHostFile_noWhiteout host.accept _
      (writeHostFile host.accept [] [] "/busybox-lxd".toList host.busybox 0o755).fileMap
      "/lxd-udhcpc-default.script".toList host.defaultScript 0o755 h1
    split
    · exact h2
    · have h3 := writeMetadata_noWhiteout host _
        (writeHostFile host.accept
          (writeHostFile host.accept [] [] "/busybox-lxd".toList host.busybox 0o755).tw
          (writeHostFile host.accept [] [] "/busybox-lxd".toList host.busybox 0o755).fileMap
          "/lxd-udhcpc-default.script".toList host.defaultScript 0o755).fileMap name cf h2
      split
      · exact h3
      · exact writeTarFile_noWhiteout _ _ _ _ _ h3

theorem generateRootfsTar_noWhiteout (host : Host) (img : Image) (name : Str) :
    NoWhiteoutName (generateRootfsTar host img name).tw := by
  unfold generateRootfsTar
  have h0 : NoWhiteoutName ([] : TarWriter) := by intro w hw; simp at hw
  split
  · exact h0
  · split
    · exact h0
    · have h1 := writePreamble_noWhiteout host name (by assumption)
      simp only
      split
      · exact h1
      · exact writeLayers_noWhiteout _ _ _ _ h1

/-- The result of `generateRootfsTar` depends on the layers through the layer
loop only. -/
theorem generateRootfsTar_congr (host : Host) (cfg : Option ConfigFile) (dg : Option Hash)
    (name : Str) (ls1 ls2 : List Layer)
    (h : ∀ tw m, writeLayers host.accept tw m ls1.reverse = writeLayers host.accept tw m ls2.reverse) :
    generateRootfsTar host ⟨cfg, some ls1, dg⟩ name = generateRootfsTar host ⟨cfg, some ls2, dg⟩ name := by
  unfold generateRootfsTar
  cases cfg with
  | none => rfl
  | some cf =>
    simp only
    split
    · rfl
    · exact h _ _

theorem reverse_two_layers (lo mid hi : List Layer) (a b : Layer) :
    (lo ++ a :: (mid ++ b :: hi)).reverse = hi.reverse ++ b :: (mid.reverse ++ a :: lo.reverse) := by
  simp

theorem reverse_one_layer (lo hi : List Layer) (a : Layer) :
    (lo ++ a :: hi).reverse = hi.reverse ++ a :: lo.reverse := by
  simp

/-- An entry of a lower layer with the logical path of an entry of a higher
layer contributes nothing: the result is that of the stack without it. -/
theorem generateRootfsTar_erase_lower (host : Host) (cfg : Option ConfigFile) (dg : Option Hash)
    (name : Str) (lo mid hi : List Layer) (rd1 br1 rd2 br2 : Bool)
    (pre1 post1 pre2 post2 : List TarEntry) (e1 e2 : TarEntry)
    (h : logicalName e2.hdr.Name = logicalName e1.hdr.Name) :
    generateRootfsTar host
        ⟨cfg, some (lo ++ ⟨rd2, pre2 ++ e2 :: post2, br2⟩ ::
          (mid ++ ⟨rd1, pre1 ++ e1 :: post1, br1⟩ :: hi)), dg⟩ name =
      generateRootfsTar host
        ⟨cfg, some (lo ++ ⟨rd2, pre2 ++ post2, br2⟩ ::
          (mid ++ ⟨rd1, pre1 ++ e1 :: post1, br1⟩ :: hi)), dg⟩ name := by
  apply generateRootfsTar_congr
  intro tw m
  rw [reverse_two_layers, reverse_two_layers]
  exact writeLayers_dup host.accept hi.reverse mid.reverse lo.reverse rd1 br1 rd2 br2
    pre1 post1 pre2 post2 e1 e2 tw m h

/-- Within a layer, a later entry with the logical path of an earlier one
contributes nothing. -/
theorem generateRootfsTar_erase_later (host : Host) (cfg : Option ConfigFile) (dg : Option Hash)
    (name : Str) (lo hi : List Layer) (rd br : Bool) (pre mid post : List TarEntry)
    (e1 e2 : TarEntry) (h : logicalName e2.hdr.Name = logicalName e1.hdr.Name) :
    generateRootfsTar host
        ⟨cfg, some (lo ++ ⟨rd, pre ++ e1 :: (mid ++ e2 :: post), br⟩ :: hi), dg⟩ name =
      generateRootfsTar host
        ⟨cfg, some (lo ++ ⟨rd, pre ++ e1 :: (mid ++ post), br⟩ :: hi), dg⟩ name := by
  apply generateRootfsTar_congr
  intro tw m
  rw [reverse_one_layer, reverse_one_layer]
  exact writeLayers_dup_same host.accept hi.reverse lo.reverse rd br pre mid post e1 e2 tw m h

theorem blocked_eq_false (m : FileMap) (p : Str) (h1 : m.lookup p = none)
    (h2 : inWhiteoutDir m p = false) : blocked m p = false := by
  simp [blocked, h1, h2]

theorem lookup_of_mapLe {m1 m2 : FileMap} (h : MapLe m1 m2) (a : Str) (v : Bool)
    (ha : m1.lookup a = some v) : m2.lookup a = some v := h a v ha

/-- While `a` is mapped to true, an entry that is no whiteout marker and whose
cleaned name has `a` as a proper ancestor is skipped. -/
theorem writeTarFile_skip_below (accept : Header → Bool) (tw : TarWriter) (m : FileMap) (a : Str)
    (hd : Header) (c : Str) (ha : m.lookup a = some true)
    (hp : ProperAncestor a (Clean hd.Name)) (ht : isTombstone hd.Name = false) :
    writeTarFile accept tw m hd c = ⟨tw, m, none⟩ := by
  rw [← logicalName_of_not_tombstone hd.Name ht] at hp
  exact writeTarFile_skip accept tw m hd c (blocked_of_ancestor m a _ ha hp)

set_option maxRecDepth 100000 in
/-- C1 (code at the failing input).  Layer 1 holds the whiteout marker
`etc/.wh.a` and nothing else, layer 0 holds `/etc/a`.  The marker is taken for a
tombstone and recorded under the key `etc/a` (the prefix `.wh.` alone is cut
off, as `etc/.wh.whoami` shows); the entry `/etc/a` has the key `/etc/a`, is not
found in the map, and is written under the output name `rootfs/etc/a`.  With the
lower entry named `etc/a` the marker does hide it. -/
theorem whiteout_soundness_fails :
    isTombstone "etc/.wh.a".toList = true ∧
    logicalName "etc/.wh.a".toList = "etc/a".toList ∧
    logicalName "etc/.wh.whoami".toList = "etc/whoami".toList ∧
    logicalName "/etc/a".toList = "/etc/a".toList ∧
    (rootfsHeader (fileEntry "/etc/a").hdr).Name = "rootfs/etc/a".toList ∧
    (writeLayers demoHost.accept [] [] [⟨true, [fileEntry "etc/.wh.a"], false⟩]).fileMap =
      [("etc/a".toList, true)] ∧
    entryNames (generateRootfsTar demoHost
        ⟨some demoConfig, some [⟨true, [fileEntry "/etc/a"], false⟩,
          ⟨true, [fileEntry "etc/.wh.a"], false⟩], none⟩ "hello".toList).tw =
      ["rootfs/busybox-lxd", "rootfs/lxd-udhcpc-default.script", "metadata.yaml",
        "rootfs/sbin/init", "rootfs/etc/a"] ∧
    entryNames (generateRootfsTar demoHost
        ⟨some demoConfig, some [⟨true, [fileEntry "etc/a", fileEntry "etc/b"], false⟩,
          ⟨true, [fileEntry "etc/.wh.a"], false⟩], none⟩ "hello".toList).tw =
      ["rootfs/busybox-lxd", "rootfs/lxd-udhcpc-default.script", "metadata.yaml",
        "rootfs/sbin/init", "rootfs/etc/b"] := by
  decide

set_option maxRecDepth 100000 in
/-- C2 (code at the failing input).  The marker `.wh.a` records `a` with the
value true.  The cleaned path of the entry `a/.wh...` is `a/.wh...`, of which `a`
is a proper ancestor, and `inWhiteoutDir` is true for that path.  `writeTarFile`
tests the logical path instead, here `.`: the entry is not skipped, and `.` is
recorded with the value true.  After it every entry with a relative name is
skipped: the stack with the entry `a/.wh...` loses `b` and `etc/c`, which the
stack without it keeps.  The entries `a/x` and `a/x/y` are skipped in both. -/
theorem ancestor_tombstone_fails :
    writeTarFile (fun _ => true) [] [] (fileEntry ".wh.a").hdr [] =
      ⟨[], [("a".toList, true)], none⟩ ∧
    Clean "a/.wh...".toList = "a/.wh...".toList ∧
    ProperAncestor "a".toList (Clean "a/.wh...".toList) ∧
    inWhiteoutDir [("a".toList, true)] (Clean "a/.wh...".toList) = true ∧
    logicalName "a/.wh...".toList = ".".toList ∧
    writeTarFile (fun _ => true) [] [("a".toList, true)] (fileEntry "a/.wh...").hdr [] =
      ⟨[], [(".".toList, true), ("a".toList, true)], none⟩ ∧
    entryNames (generateRootfsTar demoHost
        ⟨some demoConfig, some [⟨true, [fileEntry "b", fileEntry "etc/c"], false⟩,
          ⟨true, [fileEntry "a/.wh...", fileEntry "a/x", fileEntry "a/x/y"], false⟩,
          ⟨true, [fileEntry ".wh.a"], false⟩], none⟩ "hello".toList).tw =
      ["rootfs/busybox-lxd", "rootfs/lxd-udhcpc-default.script", "metadata.yaml",
        "rootfs/sbin/init"] ∧
    entryNames (generateRootfsTar demoHost
        ⟨some demoConfig, some [⟨true, [fileEntry "b", fileEntry "etc/c"], false⟩,
          ⟨true, [fileEntry "a/x", fileEntry "a/x/y"], false⟩,
          ⟨true, [fileEntry ".wh.a"], false⟩], none⟩ "hello".toList).tw =
      ["rootfs/busybox-lxd", "rootfs/lxd-udhcpc-default.script", "metadata.yaml",
        "rootfs/sbin/init", "rootfs/b", "rootfs/etc/c"] :=
  ⟨by decide, by decide, ⟨by decide, by decide, 1, by decide, by decide⟩, by decide, by decide,
    by decide, by decide, by decide⟩

set_option maxRecDepth 100000 in
/-- C3 (code at the failing input).  Layer 0 holds `/etc/a` with the content
`old`, layer 1 holds `etc/a` with the content `new`.  The two entries have
different keys in the map and one output name: both are written as
`rootfs/etc/a`, the entry of the lower layer last.  With the lower entry named
`./etc/a`, which `filepath.Clean` maps to the key `etc/a`, one entry is written. -/
theorem topmost_layer_wins_fails :
    logicalName "etc/a".toList = "etc/a".toList ∧
    logicalName "/etc/a".toList = "/etc/a".toList ∧
    logicalName "./etc/a".toList = "etc/a".toList ∧
    (rootfsHeader { Name := "etc/a".toList, Typeflag := TypeReg, Size := 3 }).Name =
      "rootfs/etc/a".toList ∧
    (rootfsHeader { Name := "/etc/a".toList, Typeflag := TypeReg, Size := 3 }).Name =
      "rootfs/etc/a".toList ∧
    ((generateRootfsTar demoHost
        ⟨some demoConfig,
          some [⟨true, [⟨{ Name := "/etc/a".toList, Typeflag := TypeReg, Size := 3 },
              "old".toList⟩], false⟩,
            ⟨true, [⟨{ Name := "etc/a".toList, Typeflag := TypeReg, Size := 3 },
              "new".toList⟩], false⟩], none⟩ "hello".toList).tw.drop 4).map
        (fun e => (String.mk e.hdr.Name, String.mk e.data)) =
      [("rootfs/etc/a", "new"), ("rootfs/etc/a", "old")] ∧
    ((generateRootfsTar demoHost
        ⟨some demoConfig,
          some [⟨true, [⟨{ Name := "./etc/a".toList, Typeflag := TypeReg, Size := 3 },
              "old".toList⟩], false⟩,
            ⟨true, [⟨{ Name := "etc/a".toList, Typeflag := TypeReg, Size := 3 },
              "new".toList⟩], false⟩], none⟩ "hello".toList).tw.drop 4).map
        (fun e => (String.mk e.hdr.Name, String.mk e.data)) =
      [("rootfs/etc/a", "new")] := by
  decide

set_option maxRecDepth 100000 in
/-- C4 (code at the failing input).  The host files are recorded in the map under
`/busybox-lxd` and `/lxd-udhcpc-default.script`, a layer entry `busybox-lxd` has
the logical path `busybox-lxd`, and so the layer entry is written as a second
`rootfs/busybox-lxd` after the host file; the layer entry `sbin/init`, whose
logical path is the recorded one, is not written. -/
theorem host_file_precedence_fails :
    (writePreamble demoHost "hello".toList demoConfig).fileMap =
      [("sbin/init".toList, true), ("/lxd-udhcpc-default.script".toList, true),
        ("/busybox-lxd".toList, true)] ∧
    logicalName "busybox-lxd".toList = "busybox-lxd".toList ∧
    entryNames (generateRootfsTar demoHost
        ⟨some demoConfig, some [⟨true, [fileEntry "sbin/init", fileEntry "busybox-lxd"], false⟩],
          none⟩ "hello".toList).tw =
      ["rootfs/busybox-lxd", "rootfs/lxd-udhcpc-default.script", "metadata.yaml",
        "rootfs/sbin/init", "rootfs/busybox-lxd"] := by
  decide

/-! ### The update controller -/

theorem find_dirRename (dir : ImageDir) (old new : Str) (decoded : Option RootfsMetadata) :
    (dirRename dir old new decoded).find? (fun e => e.name == new) = some ⟨new, false, decoded⟩ := by
  unfold dirRename
  rw [List.find?_append]
  have : (List.filter (fun e => e.name != old && e.name != new) dir).find?
      (fun e => e.name == new) = none := by
    rw [List.find?_eq_none]
    intro e he
    rw [List.mem_filter] at he
    have := he.2
    simp only [Bool.and_eq_true, bne_iff_ne, ne_eq] at this
    simpa using this.2
  rw [this]
  simp

theorem ReadRootfsMetaData_dirRename (dir : ImageDir) (old new : Str)
    (decoded : Option RootfsMetadata) :
    ReadRootfsMetaData (dirRename dir old new decoded) new = decoded := by
  unfold ReadRootfsMetaData
  rw [find_dirRename]
  simp

theorem dirHas_dirRename_new (dir : ImageDir) (old new : Str) (decoded : Option RootfsMetadata) :
    dirHas (dirRename dir old new decoded) new = true := by
  simp [dirHas, dirRename]

theorem dirHas_dirCreate (dir : ImageDir) (n x : Str) (h : dirHas dir x = true) :
    dirHas (dirCreate dir n) x = true := by
  unfold dirHas dirCreate at *
  rw [List.any_append, h]
  rfl

theorem dirHas_dirRename_other (dir : ImageDir) (old new x : Str)
    (decoded : Option RootfsMetadata) (h : dirHas dir x = true) (h1 : x ≠ old) (h2 : x ≠ new) :
    dirHas (dirRename dir old new decoded) x = true := by
  unfold dirHas dirRename at *
  rw [List.any_append]
  rw [List.any_eq_true] at h
  obtain ⟨e, he, hx⟩ := h
  have hx : e.name = x := by simpa using hx
  have : (List.filter (fun e => e.name != old && e.name != new) dir).any
      (fun e => e.name == x) = true := by
    rw [List.any_eq_true]
    refine ⟨e, ?_, by simpa using hx⟩
    rw [List.mem_filter]
    refine ⟨he, ?_⟩
    simp [hx, h1, h2]
  rw [this]
  rfl

theorem rootfsFilenameOf_ne_meta (name : Str) (h : Hash) :
    rootfsFilenameOf name h ≠ name ++ ".meta".toList := by
  unfold rootfsFilenameOf
  intro e
  rw [List.append_assoc, List.append_assoc] at e
  have := List.append_cancel_left e
  simp [String.toList] at this

/-- The rebuild never ends with the exit "did not change, skip". -/
theorem rebuildBundle_ne_unchanged (run : Run) (file : SpecRun) (name : Str)
    (specHash ociHash : Hash) :
    (rebuildBundle run file name specHash ociHash).2 ≠ Outcome.unchanged := by
  unfold rebuildBundle
  cases file.tempRootfs <;> cases file.rootfsHash <;> cases file.tempMeta <;>
    simp only [] <;> (try split_ifs) <;> simp

/-- C7.  Rebuild decision.  For a spec file that was read and parsed and whose
image and manifest digest were obtained: the iteration ends with "did not change,
skip" exactly when the existing `<name>.meta` decodes and holds both the digest
of the spec bytes and the manifest digest; on that exit the manifest digest and
the stored bundle filename are added to the used sets and `imageDir` is left as it
is; in every other case the iteration goes on to the rebuild, which, when its
file operations succeed, leaves the bundle `<name>-<hex>.rootfs` and a
`<name>.meta` that decodes to the new record, both marked as used. -/
theorem rebuild_decision (sha256Hex : Str → Str) (run : Run) (file : SpecRun)
    (specBytes : Str) (spec : ImageSpec) (img : Image) (ociHash : Hash)
    (hfile : file.isDir = false)
    (hext : Ext file.fileName = ".yaml".toList ∨ Ext file.fileName = ".yml".toList)
    (hbytes : file.specBytes = some specBytes) (hspec : file.spec = some spec)
    (himg : file.image = some img) (hdig : img.digest = some ociHash) :
    let name := specName file.fileName
    let specHash := hashToV1 (sha256Hex specBytes)
    let run1 : Run := { run with usedLxdMetadata := name :: run.usedLxdMetadata }
    ((processSpec sha256Hex run file).2 = Outcome.unchanged ↔
      ∃ m, ReadRootfsMetaData run.imageDir (name ++ ".meta".toList) = some m ∧
        m.SpecDigest = specHash ∧ m.OciImageDigest = ociHash) ∧
    (∀ m, ReadRootfsMetaData run.imageDir (name ++ ".meta".toList) = some m →
      m.SpecDigest = specHash → m.OciImageDigest = ociHash →
      processSpec sha256Hex run file =
        ({ run1 with
            usedOciImages := ociHash :: run.usedOciImages
            usedLxdImages := m.Filename :: run.usedLxdImages }, Outcome.unchanged)) ∧
    ((¬ ∃ m, ReadRootfsMetaData run.imageDir (name ++ ".meta".toList) = some m ∧
        m.SpecDigest = specHash ∧ m.OciImageDigest = ociHash) →
      processSpec sha256Hex run file = rebuildBundle run1 file name specHash ociHash) ∧
    (∀ (temp : Str) (rootfsHash : Hash) (tempMeta : Str),
      file.tempRootfs = some temp → dirHas run.imageDir temp = false →
      file.generated = true → file.rootfsHash = some rootfsHash → file.renameRootfs = true →
      file.tempMeta = some tempMeta →
      dirHas (dirRename (dirCreate run.imageDir temp) temp (rootfsFilenameOf name rootfsHash) none)
        tempMeta = false →
      file.encoded = true → file.renameMeta = true →
      (rebuildBundle run1 file name specHash ociHash).2 = Outcome.rebuilt ∧
      dirHas (rebuildBundle run1 file name specHash ociHash).1.imageDir
        (rootfsFilenameOf name rootfsHash) = true ∧
      ReadRootfsMetaData (rebuildBundle run1 file name specHash ociHash).1.imageDir
        (name ++ ".meta".toList) =
          some ⟨specHash, ociHash, rootfsHash, rootfsFilenameOf name rootfsHash⟩ ∧
      (rebuildBundle run1 file name specHash ociHash).1.usedOciImages =
        ociHash :: run.usedOciImages ∧
      (rebuildBundle run1 file name specHash ociHash).1.usedLxdImages =
        rootfsFilenameOf name rootfsHash :: run.usedLxdImages) := by
  intro name specHash run1
  have hext2 : (Ext file.fileName != ".yaml".toList && Ext file.fileName != ".yml".toList) = false := by
    rcases hext with h | h <;> simp [h]
  have hproc : processSpec sha256Hex run file =
      match ReadRootfsMetaData run.imageDir (name ++ ".meta".toList) with
      | some oldRootMeta =>
        if oldRootMeta.SpecDigest = specHash ∧ oldRootMeta.OciImageDigest = ociHash then
          ({ run1 with
              usedOciImages := ociHash :: run.usedOciImages
              usedLxdImages := oldRootMeta.Filename :: run.usedLxdImages }, Outcome.unchanged)
        else rebuildBundle run1 file name specHash ociHash
      | none => rebuildBundle run1 file name specHash ociHash := by
    unfold processSpec
    simp only [hfile, hext2, hbytes, hspec, himg, hdig, Bool.false_eq_true, if_false]
    rfl
  have hne := rebuildBundle_ne_unchanged run1 file name specHash ociHash
  refine ⟨?_, ?_, ?_, ?_⟩
  · rw [hproc]
    cases hr : ReadRootfsMetaData run.imageDir (name ++ ".meta".toList) with
    | none =>
      simp only
      constructor
      · intro h; exact absurd h hne
      · rintro ⟨m, hm, _⟩; exact absurd hm (by simp)
    | some m =>
      simp only
      by_cases hc : m.SpecDigest = specHash ∧ m.OciImageDigest = ociHash
      · rw [if_pos hc]
        exact ⟨fun _ => ⟨m, rfl, hc.1, hc.2⟩, fun _ => rfl⟩
      · rw [if_neg hc]
        constructor
        · intro h; exact absurd h hne
        · rintro ⟨m', hm', h1, h2⟩
          have : m' = m := by simpa using hm'.symm
          subst this
          exact absurd ⟨h1, h2⟩ hc
  · intro m hm h1 h2
    rw [hproc, hm]
    simp only
    rw [if_pos ⟨h1, h2⟩]
  · intro hno
    rw [hproc]
    cases hr : ReadRootfsMetaData run.imageDir (name ++ ".meta".toList) with
    | none => rfl
    | some m =>
      simp only
      rw [if_neg]
      intro hc
      exact hno ⟨m, hr, hc.1, hc.2⟩
  · intro temp rootfsHash tempMeta h1 h2 h3 h4 h5 h6 h7 h8 h9
    have hrun1 : run1.imageDir = run.imageDir := rfl
    have hreb : rebuildBundle run1 file name specHash ociHash =
        ({ run1 with
            imageDir := dirRename
              (dirCreate (dirRename (dirCreate run.imageDir temp) temp
                (rootfsFilenameOf name rootfsHash) none) tempMeta)
              tempMeta (name ++ ".meta".toList)
              (some ⟨specHash, ociHash, rootfsHash, rootfsFilenameOf name rootfsHash⟩)
            usedOciImages := ociHash :: run.usedOciImages
            usedLxdImages := rootfsFilenameOf name rootfsHash :: run.usedLxdImages },
          Outcome.rebuilt) := by
      unfold rebuildBundle
      simp only [h1, hrun1, h2, h3, h4, h5, h6, h7, h8, h9, Bool.false_eq_true, if_false,
        Bool.not_true]
    rw [hreb]
    refine ⟨rfl, ?_, ?_, rfl, rfl⟩
    · simp only
      apply dirHas_dirRename_other
      · apply dirHas_dirCreate
        exact dirHas_dirRename_new _ _ _ _
      · intro e
        rw [← e, dirHas_dirRename_new] at h7
        exact absurd h7 (by simp)
      · exact rootfsFilenameOf_ne_meta name rootfsHash
    · simp only
      exact ReadRootfsMetaData_dirRename _ _ _ _

/-- C8.  `shellEscape` is the character-wise escape: a backslash, a double quote
and a dollar sign each get a backslash in front, every other character is kept
as it is and in order; deleting the backslash in front of each escaped character
gives back the input. -/
theorem shellEscape_characterwise (s : Str) :
    shellEscape s = s.flatMap escapeChar ∧ unescape (shellEscape s) = s := by
  constructor
  · exact shellEscape_eq s
  · rw [shellEscape_eq]
    exact unescape_spec s

set_option maxRecDepth 100000 in
/-- C9.  Init script structure.  The text `writeInit` builds is, in this order:
the shebang line (followed by one empty line), one guarded export per element of
`Env`, the `cd` line, the two `/dev/shm` lines, the two forwarding lines, the
`udhcpc` line, one line with every element of `Entrypoint` then of `Cmd`, each in
double quotes, ending in `&`, the `PWR` trap and the wait; interpolated values
stand in their shell-escaped form.  For `Env=["PATH=/bin"]`, `WorkingDir="/"`,
`Cmd=["/bin/sh"]` the text is the one given. -/
theorem init_script_structure :
    (∀ config : Config, initScript config = specInitScript config) ∧
    (∀ (accept : Header → Bool) (tw : TarWriter) (m : FileMap) (config : Config),
      writeInit accept tw m config =
        writeTarFile accept tw m
          { Name := "sbin/init".toList, Mode := 0o755, Size := (initScript config).length }
          (initScript config)) ∧
    initScript ⟨["PATH=/bin".toList], "/".toList, [], ["/bin/sh".toList]⟩ =
      ("#!/busybox-lxd sh\n\n"
        ++ "if [ -z \"$\x7bPATH+x\x7d\" ]; then export \"PATH=/bin\"; fi\n"
        ++ "cd \"/\"\n"
        ++ "/busybox-lxd mkdir -p /dev/shm\n"
        ++ "/busybox-lxd mount -t tmpfs shmfs /dev/shm\n"
        ++ "/busybox-lxd echo 0 > /proc/sys/net/ipv4/ip_forward\n"
        ++ "/busybox-lxd echo 0 > /proc/sys/net/ipv6/conf/all/forwarding\n"
        ++ "/busybox-lxd udhcpc -R -b -i eth0 -s /lxd-udhcpc-default.script\n"
        ++ "\"/bin/sh\" &\n"
        ++ "trap 'kill -15 $child' PWR\n"
        ++ "child=$!; wait \"$child\"\n").toList :=
  ⟨initScript_eq, fun _ _ _ _ => rfl, by decide⟩

set_option maxRecDepth 100000 in
/-- C10 (code at the failing input).  For the `Env` element `A$B=1` the key is
printed as it is inside the braces, while the same text is escaped inside the
export: the line is not the one with the escaped key. -/
theorem env_key_not_escaped :
    envLine "A$B=1".toList =
      "if [ -z \"$\x7bA$B+x\x7d\" ]; then export \"A\\$B=1\"; fi\n".toList ∧
    envLine "A$B=1".toList ≠
      "if [ -z \"$\x7b".toList ++ shellEscape "A$B".toList
        ++ "+x\x7d\" ]; then export \"".toList ++ shellEscape "A$B=1".toList ++ "\"; fi\n".toList := by
  decide

set_option maxRecDepth 100000 in
/-- C5 (code at the failing input).  A previous run left `hello.meta` and the
bundle `hello-abc.rootfs` it names; in this run `getImage` fails for
`hello.yaml`.  The run ends without error, `hello.meta` is kept and the bundle is
deleted.  A following run in which everything succeeds and the digests are those
of `hello.meta` takes the exit "did not change, skip" and leaves the bundle
missing. -/
theorem failure_containment_fails :
    (updateAll demoSha demoDisk (some [{ demoSpec with image := none }]) demoDir).outcomes =
      [Outcome.imageFailed] ∧
    (updateAll demoSha demoDisk (some [{ demoSpec with image := none }]) demoDir).err = none ∧
    dirNames (updateAll demoSha demoDisk (some [{ demoSpec with image := none }]) demoDir).run.imageDir =
      ["hello.meta"] ∧
    (updateAll demoSha demoDisk (some [{ demoSpec with image := none }]) demoDir).run.usedLxdMetadata =
      ["hello".toList] ∧
    (updateAll demoSha demoDisk (some [demoSpec])
      (updateAll demoSha demoDisk (some [{ demoSpec with image := none }]) demoDir).run.imageDir).outcomes =
      [Outcome.unchanged] ∧
    dirNames (updateAll demoSha demoDisk (some [demoSpec])
      (updateAll demoSha demoDisk (some [{ demoSpec with image := none }]) demoDir).run.imageDir).run.imageDir =
      ["hello.meta"] := by
  decide

set_option maxRecDepth 100000 in
/-- C6 (code at the failing input).  With no spec at all, `removeUnusedLxdMetadata`
keeps `hello.meta` (its extension is not `.yaml`) and deletes the file `x.yaml`
instead; after the whole run `hello.meta` is still there although no spec is
named `hello`. -/
theorem metadata_sweep_fails :
    removeUnusedLxdMetadata demoDisk [] [⟨"hello.meta".toList, false, some demoMeta⟩] =
      ([⟨"hello.meta".toList, false, some demoMeta⟩], none) ∧
    dirNames (removeUnusedLxdMetadata demoDisk []
      [⟨"hello.meta".toList, false, some demoMeta⟩, ⟨"x.yaml".toList, false, none⟩]).1 =
      ["hello.meta"] ∧
    dirNames (updateAll demoSha demoDisk (some []) demoDir).run.imageDir = ["hello.meta"] ∧
    (updateAll demoSha demoDisk (some []) demoDir).run.usedLxdMetadata = [] := by
  decide

set_option maxRecDepth 100000 in
/-- Witness of C7: `hello.yaml` with the digests stored in `hello.meta` is skipped,
and a rebuild from an empty directory leaves the bundle and the metadata. -/
theorem rebuild_decision_witness :
    demoSpec.isDir = false ∧ Ext demoSpec.fileName = ".yaml".toList ∧
    ((processSpec demoSha ⟨[], [], [], demoDir⟩ demoSpec).2 = Outcome.unchanged ↔
      ∃ m, ReadRootfsMetaData demoDir (specName demoSpec.fileName ++ ".meta".toList) = some m ∧
        m.SpecDigest = hashToV1 (demoSha "image: hello".toList) ∧
        m.OciImageDigest = hashToV1 "0c1".toList) ∧
    (processSpec demoSha ⟨[], [], [], demoDir⟩ demoSpec).2 = Outcome.unchanged ∧
    (rebuildBundle ⟨[], [], ["hello".toList], []⟩ demoSpec "hello".toList
      (hashToV1 (demoSha "image: hello".toList)) (hashToV1 "0c1".toList)).2 = Outcome.rebuilt :=
  ⟨by decide, by decide,
    (rebuild_decision demoSha ⟨[], [], [], demoDir⟩ demoSpec "image: hello".toList
      ⟨"hello".toList⟩ demoImage (hashToV1 "0c1".toList) (by decide) (Or.inl (by decide))
      rfl rfl rfl rfl).1,
    by decide,
    ((rebuild_decision demoSha ⟨[], [], [], []⟩ demoSpec "image: hello".toList
      ⟨"hello".toList⟩ demoImage (hashToV1 "0c1".toList) (by decide) (Or.inl (by decide))
      rfl rfl rfl rfl).2.2.2 "hello123".toList (hashToV1 "def".toList) "hello.meta456".toList
      rfl (by decide) rfl rfl rfl rfl (by decide) rfl rfl).1⟩

set_option maxRecDepth 100000 in
/-- The model of `filepath.Clean`, `Dir`, `Base`, `Ext` and `Join` on sample
paths, with the results of the Go functions. -/
theorem filepath_samples :
    Clean "".toList = ".".toList ∧
    Clean "abc/def/../../../ghi/jkl/../../../mno".toList = "../../mno".toList ∧
    Clean "/abc/def/../../..".toList = "/".toList ∧
    Clean "abc//./../def".toList = "def".toList ∧
    Clean "//abc//".toList = "/abc".toList ∧
    Clean "/../abc".toList = "/abc".toList ∧
    Clean "abc/../../././../def".toList = "../../def".toList ∧
    Dir "/a/b".toList = "/a".toList ∧ Dir "a".toList = ".".toList ∧ Dir "/".toList = "/".toList ∧
    Dir "a/b/".toList = "a/b".toList ∧
    Base "a/b/".toList = "b".toList ∧ Base "".toList = ".".toList ∧ Base "//".toList = "/".toList ∧
    Ext "a/b.c/d".toList = "".toList ∧ Ext "hello.meta".toList = ".meta".toList ∧
    Join ["rootfs".toList, "/busybox-lxd".toList] = "rootfs/busybox-lxd".toList ∧
    Join ["rootfs".toList, "../metadata.yaml".toList] = "metadata.yaml".toList ∧
    Join [".".toList, "".toList] = ".".toList := by
  decide

/-! ### Bundle layout, hard links and the catalog server -/

/-- An entry that is no whiteout marker and whose logical path is neither in the
map nor below a path mapped to true is written, with the first `Size` bytes of
its content when it is of a type that has data or its `Size` is not positive. -/
theorem writeTarFile_fresh (accept : Header → Bool) (tw : TarWriter) (m : FileMap) (hd : Header)
    (c : Str) (h1 : m.lookup (logicalName hd.Name) = none)
    (h2 : inWhiteoutDir m (logicalName hd.Name) = false) (h3 : isTombstone hd.Name = false)
    (h4 : accept (rootfsHeader hd) = true) (h5 : hd.Size.toNat ≤ c.length)
    (h6 : isHeaderOnlyType hd.Typeflag = false ∨ hd.Size ≤ 0) :
    writeTarFile accept tw m hd c =
      ⟨tw ++ [⟨rootfsHeader hd, c.take hd.Size.toNat⟩],
        (logicalName hd.Name, !(hd.Typeflag == TypeDir)) :: m, none⟩ := by
  unfold writeTarFile
  have hsz : (rootfsHeader hd).Size = hd.Size := rfl
  have hty : (rootfsHeader hd).Typeflag = hd.Typeflag := rfl
  simp only [h1, h2, h3, h4, hsz, hty, Option.isSome_none, Bool.false_eq_true, if_false,
    Bool.not_false, Bool.not_true, if_true, Bool.false_or]
  split
  · rename_i hpos
    have h7 : isHeaderOnlyType hd.Typeflag = false := by
      rcases h6 with h6 | h6
      · exact h6
      · omega
    simp only [h7, Bool.false_eq_true, if_false]
    rw [if_neg (by omega)]
  · rename_i hpos
    have : hd.Size.toNat = 0 := by omega
    simp [this]

/-- An entry of a header-only type with a positive `Size` that is no whiteout
marker and is not skipped: its header is written, the copy of its content
fails, and no data follows the header. -/
theorem writeTarFile_headerOnly (accept : Header → Bool) (tw : TarWriter) (m : FileMap)
    (hd : Header) (c : Str) (h1 : m.lookup (logicalName hd.Name) = none)
    (h2 : inWhiteoutDir m (logicalName hd.Name) = false) (h3 : isTombstone hd.Name = false)
    (h4 : accept (rootfsHeader hd) = true) (h5 : isHeaderOnlyType hd.Typeflag = true)
    (h6 : 0 < hd.Size) :
    writeTarFile accept tw m hd c =
      ⟨tw ++ [⟨rootfsHeader hd, []⟩],
        (logicalName hd.Name, !(hd.Typeflag == TypeDir)) :: m, some WriteErr.contents⟩ := by
  unfold writeTarFile
  have hsz : (rootfsHeader hd).Size = hd.Size := rfl
  have hty : (rootfsHeader hd).Typeflag = hd.Typeflag := rfl
  simp only [h1, h2, h3, h4, h5, h6, hsz, hty, Option.isSome_none, Bool.false_eq_true, if_false,
    Bool.not_false, Bool.not_true, if_true, Bool.false_or]

/-- C12 (amended).  Hard links.  `writeTarFile` treats a hard link like any other
entry and never looks its `Linkname` up in the map.  (1) A hard link that is
written has the name `rootfs` joined with its cleaned name and the link name
`rootfs` joined with its `Linkname`.  (2) Whatever the map holds for the target,
a hard link that is no whiteout marker, whose logical path is neither in the map
nor below a path mapped to true, and whose header the tar writer accepts, is
written: the header with no data, its logical path recorded with the value true;
the call returns nil when `Size` is not positive and the error of the copy when
it is. -/
theorem hardlink_rewrite :
    (∀ (accept : Header → Bool) (tw : TarWriter) (m : FileMap) (hd : Header) (c : Str),
        hd.Typeflag = TypeLink →
        (writeTarFile accept tw m hd c).tw = tw ∨
          ∃ data, (writeTarFile accept tw m hd c).tw =
            tw ++ [⟨{ hd with
                      Name := Join ["rootfs".toList, Clean hd.Name]
                      Linkname := Join ["rootfs".toList, hd.Linkname]
                      Format := Format.PAX }, data⟩]) ∧
    (∀ (accept : Header → Bool) (tw : TarWriter) (m : FileMap) (hd : Header) (c : Str),
        hd.Typeflag = TypeLink →
        m.lookup (logicalName hd.Name) = none → inWhiteoutDir m (logicalName hd.Name) = false →
        isTombstone hd.Name = false → accept (rootfsHeader hd) = true →
        writeTarFile accept tw m hd c =
          ⟨tw ++ [⟨rootfsHeader hd, []⟩], (logicalName hd.Name, true) :: m,
            if 0 < hd.Size then some WriteErr.contents else none⟩) := by
  constructor
  · intro accept tw m hd c hl
    rcases writeTarFile_tw accept tw m hd c with e | ⟨_, _, data, e⟩
    · exact Or.inl e
    · right
      refine ⟨data, ?_⟩
      rw [e]
      simp [rootfsHeader, hl]
  · intro accept tw m hd c hl h1 h2 h3 h4
    have hty : (!(hd.Typeflag == TypeDir)) = true := by rw [hl]; decide
    by_cases hs : 0 < hd.Size
    · rw [writeTarFile_headerOnly accept tw m hd c h1 h2 h3 h4 (by rw [hl]; decide) hs, hty,
        if_pos hs]
    · have h0 : hd.Size.toNat = 0 := by omega
      rw [writeTarFile_fresh accept tw m hd c h1 h2 h3 h4 (by omega) (Or.inr (by omega)), hty,
        if_neg hs, h0]
      rfl

set_option maxRecDepth 100000 in
/-- Witness of C12: the hard link `b` to `a`, with `a` mapped to true. -/
theorem hardlink_rewrite_witness :
    ((writeTarFile (fun _ => true) [] [("a".toList, true)] (linkEntry "b" "a").hdr []).tw = [] ∨
      ∃ data, (writeTarFile (fun _ => true) [] [("a".toList, true)] (linkEntry "b" "a").hdr []).tw =
        [] ++ [⟨{ (linkEntry "b" "a").hdr with
                  Name := Join ["rootfs".toList, Clean (linkEntry "b" "a").hdr.Name]
                  Linkname := Join ["rootfs".toList, (linkEntry "b" "a").hdr.Linkname]
                  Format := Format.PAX }, data⟩]) ∧
    [("a".toList, true)].lookup (logicalName (linkEntry "b" "a").hdr.Linkname) = some true ∧
    writeTarFile (fun _ => true) [] [("a".toList, true)] (linkEntry "b" "a").hdr [] =
      ⟨[] ++ [⟨rootfsHeader (linkEntry "b" "a").hdr, []⟩],
        (logicalName (linkEntry "b" "a").hdr.Name, true) :: [("a".toList, true)],
        if 0 < (linkEntry "b" "a").hdr.Size then some WriteErr.contents else none⟩ ∧
    writeTarFile (fun _ => true) [] [("a".toList, true)]
        { Name := "b".toList, Linkname := "a".toList, Typeflag := TypeLink, Size := 3 }
        "abc".toList =
      ⟨[] ++ [⟨rootfsHeader
          { Name := "b".toList, Linkname := "a".toList, Typeflag := TypeLink, Size := 3 }, []⟩],
        (logicalName "b".toList, true) :: [("a".toList, true)],
        if 0 < (3 : Int) then some WriteErr.contents else none⟩ :=
  ⟨hardlink_rewrite.1 (fun _ => true) [] [("a".toList, true)] (linkEntry "b" "a").hdr [] rfl,
    by decide,
    hardlink_rewrite.2 (fun _ => true) [] [("a".toList, true)] (linkEntry "b" "a").hdr [] rfl
      (by decide) (by decide) (by decide) rfl,
    hardlink_rewrite.2 (fun _ => true) [] [("a".toList, true)]
      { Name := "b".toList, Linkname := "a".toList, Typeflag := TypeLink, Size := 3 }
      "abc".toList rfl (by decide) (by decide) (by decide) rfl⟩

set_option maxRecDepth 100000 in
/-- Counterexample to C12 as stated: layer 0 holds the file `a` and the hard link
`b` to `a`, layer 1 holds the marker `.wh.a`.  The link is written, with the link
name `rootfs/a`, and no entry `rootfs/a` is. -/
theorem hardlink_rewrite_counterexample :
    (generateRootfsTar demoHost
        ⟨some demoConfig, some [⟨true, [fileEntry "a", linkEntry "b" "a"], false⟩,
          ⟨true, [fileEntry ".wh.a"], false⟩], none⟩ "hello".toList).tw.map
      (fun e => (String.mk e.hdr.Name, String.mk e.hdr.Linkname)) =
      [("rootfs/busybox-lxd", ""), ("rootfs/lxd-udhcpc-default.script", ""), ("metadata.yaml", ""),
        ("rootfs/sbin/init", ""), ("rootfs/b", "rootfs/a")] := by
  decide

set_option maxRecDepth 100000 in
/-- C14 (code at the failing input).  A layer entry named `../metadata.yaml` is
written under the name `metadata.yaml`, at the archive root and after the
synthesized `metadata.yaml`; an entry named `../../etc/passwd` is written as
`../etc/passwd`.  Names with a leading separator stay below `rootfs`. -/
theorem layer_entry_leaves_rootfs :
    (rootfsHeader (fileEntry "../metadata.yaml").hdr).Name = "metadata.yaml".toList ∧
    entryNames (generateRootfsTar demoHost
        ⟨some demoConfig, some [⟨true, [fileEntry "../metadata.yaml", fileEntry "../../etc/passwd",
          fileEntry "/etc/hosts"], false⟩], none⟩ "hello".toList).tw =
      ["rootfs/busybox-lxd", "rootfs/lxd-udhcpc-default.script", "metadata.yaml",
        "rootfs/sbin/init", "metadata.yaml", "../etc/passwd", "rootfs/etc/hosts"] := by
  decide

theorem ext_rootfs_real (filename : Str) (h : Ext filename = ".rootfs".toList)
    (hs : '/' ∉ filename) : RealElem filename := by
  refine ⟨?_, ?_, ?_, hs⟩
  · intro e; rw [e] at h; exact absurd h (by decide)
  · intro e; rw [e] at h; exact absurd h (by decide)
  · intro e; rw [e] at h; exact absurd h (by decide)

theorem isRooted_append (x y : Str) (h : x ≠ []) : isRooted (x ++ y) = isRooted x := by
  cases x with
  | nil => exact absurd rfl h
  | cons a x => rfl

/-- Joining a directory with a proper path element gives a path whose `Dir` is
the cleaned directory and whose `Base` is the element. -/
theorem Join_child (dir filename : Str) (h : RealElem filename) :
    Dir (Join [dir, filename]) = Clean dir ∧ Base (Join [dir, filename]) = filename := by
  by_cases hd : dir = []
  · subst hd
    have hj : Join [[], filename] = filename := by
      have hc : pathComponents filename = [filename] := pathComponents_no_sep_self filename h.2.2.2
      have hr : isRooted filename = false := by
        cases hf : filename with
        | nil => exact absurd hf h.1
        | cons a as =>
          have : a ≠ '/' := by
            intro e; apply h.2.2.2; rw [hf, e]; exact List.mem_cons_self _ _
          simp [isRooted, this]
      simp only [Join, h.1, if_false, if_true, intercalate_single]
      unfold Clean
      rw [if_neg h.1, hr, hc]
      simp only [cleanStack, List.foldl_cons, List.foldl_nil]
      rw [cleanStep_real false [] filename h, renderPath_single]
    rw [hj, Dir_no_sep filename h.2.2.2]
    refine ⟨rfl, ?_⟩
    simpa using Base_suffix [] filename h.1 h.2.2.2 (Or.inl rfl)
  · rw [Join_pair dir filename hd]
    have hN := cleanStack_normal (isRooted dir) dir
    have hc : Clean dir = renderPath (isRooted dir) (cleanStack (isRooted dir) (pathComponents dir)) := by
      unfold Clean; rw [if_neg hd]
    have hj : Clean (dir ++ '/' :: filename) =
        renderPath (isRooted dir) (filename :: cleanStack (isRooted dir) (pathComponents dir)) := by
      unfold Clean
      rw [if_neg (by simp), isRooted_append dir _ hd, pathComponents_append_sep,
        pathComponents_no_sep_self filename h.2.2.2, cleanStack_append]
      simp only [List.foldl_cons, List.foldl_nil]
      rw [cleanStep_real _ _ filename h]
    have hN2 : NormalStack (isRooted dir)
        (filename :: cleanStack (isRooted dir) (pathComponents dir)) := Or.inl ⟨h, hN⟩
    rw [hj, hc]
    exact ⟨Dir_renderPath _ _ hN2, Base_renderPath _ _ _ hN2⟩

theorem rootfsJsonHandler_of_split (imagesDir urlPath filename : Str)
    (hsplit : stringsSplit urlPath '/' = [[], "images".toList, filename])
    (hext : Ext filename = ".rootfs".toList) :
    rootfsJsonHandler imagesDir urlPath = Response.serveFile (Join [imagesDir, filename]) := by
  unfold rootfsJsonHandler
  simp [hsplit, hext]

theorem rootfsJsonHandler_cases (imagesDir urlPath : Str) :
    rootfsJsonHandler imagesDir urlPath = Response.notFound ∨
      ∃ filename, stringsSplit urlPath '/' = [[], "images".toList, filename] ∧
        Ext filename = ".rootfs".toList := by
  unfold rootfsJsonHandler
  simp only
  split
  · exact Or.inl rfl
  · rename_i hc
    simp only [Bool.or_eq_true, bne_iff_ne, ne_eq, not_or, not_not] at hc
    obtain ⟨⟨hlen, h0⟩, h1⟩ := hc
    split
    · exact Or.inl rfl
    · rename_i he
      right
      have he : Ext ((stringsSplit urlPath '/').getD 2 []) = ".rootfs".toList := by simpa using he
      cases hs : stringsSplit urlPath '/' with
      | nil => rw [hs] at hlen; simp at hlen
      | cons a t =>
        cases t with
        | nil => rw [hs] at hlen; simp at hlen
        | cons b t =>
          cases t with
          | nil => rw [hs] at hlen; simp at hlen
          | cons c t =>
            cases t with
            | cons d t => rw [hs] at hlen; simp at hlen
            | nil =>
              rw [hs] at h0 h1 he
              simp only [List.getD_cons_zero, List.getD_cons_succ] at h0 h1 he
              exact ⟨c, by rw [h0, h1], he⟩

/-- C13.  Bundle endpoint validation.  A request path beginning with `/images/`
goes to `rootfsJsonHandler`; the handler answers 404 unless the path splits on
`/` into exactly the components empty, `images` and a filename with the
extension `.rootfs`; in that case it serves `imagesDir` joined with the filename,
the filename holds no separator, and the served path is a direct child of
`imagesDir`: its `Dir` is the cleaned `imagesDir` and its `Base` the filename. -/
theorem bundle_endpoint_validation (imagesDir urlPath : Str)
    (hpre : stringsHasPrefix urlPath "/images/".toList = true) :
    wildcardRequestHandler imagesDir urlPath = rootfsJsonHandler imagesDir urlPath ∧
    (rootfsJsonHandler imagesDir urlPath = Response.notFound ∨
      ∃ filename, stringsSplit urlPath '/' = [[], "images".toList, filename] ∧
        Ext filename = ".rootfs".toList) ∧
    (∀ filename, stringsSplit urlPath '/' = [[], "images".toList, filename] →
      Ext filename = ".rootfs".toList →
      rootfsJsonHandler imagesDir urlPath = Response.serveFile (Join [imagesDir, filename]) ∧
      '/' ∉ filename ∧
      Dir (Join [imagesDir, filename]) = Clean imagesDir ∧
      Base (Join [imagesDir, filename]) = filename) := by
  refine ⟨?_, rootfsJsonHandler_cases imagesDir urlPath, ?_⟩
  · unfold wildcardRequestHandler
    rw [if_pos hpre]
  · intro filename hsplit hext
    have hs : '/' ∉ filename := by
      apply pathComponents_no_sep urlPath
      show filename ∈ stringsSplit urlPath '/'
      rw [hsplit]
      simp
    have hreal := ext_rootfs_real filename hext hs
    have hchild := Join_child imagesDir filename hreal
    exact ⟨rootfsJsonHandler_of_split imagesDir urlPath filename hsplit hext, hs,
      hchild.1, hchild.2⟩

set_option maxRecDepth 100000 in
/-- Witness of C13: `/images/hello-abc.rootfs` is served from `/srv/img`; a path
with a further separator, and one with another extension, get 404. -/
theorem bundle_endpoint_validation_witness :
    stringsHasPrefix "/images/hello-abc.rootfs".toList "/images/".toList = true ∧
    wildcardRequestHandler "/srv/img".toList "/images/hello-abc.rootfs".toList =
      rootfsJsonHandler "/srv/img".toList "/images/hello-abc.rootfs".toList ∧
    rootfsJsonHandler "/srv/img".toList "/images/hello-abc.rootfs".toList =
      Response.serveFile "/srv/img/hello-abc.rootfs".toList ∧
    wildcardRequestHandler "/srv/img".toList "/images/../hello-abc.rootfs".toList =
      Response.notFound ∧
    wildcardRequestHandler "/srv/img".toList "/images/hello.meta".toList = Response.notFound ∧
    wildcardRequestHandler "/srv/img".toList "/images/".toList = Response.notFound :=
  ⟨by decide,
    (bundle_endpoint_validation "/srv/img".toList "/images/hello-abc.rootfs".toList
      (by decide)).1,
    by decide, by decide, by decide, by decide⟩

set_option maxRecDepth 100000 in
/-- C15 (code at the failing input).  For a `hello.meta` that decodes to a record
without `LxdImageDigest` (its `Hex` is empty) and whose bundle stat succeeds, the
slice `Hex[:12]` is out of range and the handler panics: no product is added and
no answer is encoded, also for the valid file listed before it.  With a digest of
64 hex digits the version name is the date, `_` and the first 12 digits. -/
theorem version_label_panics :
    goSliceTo metaWithoutDigest.LxdImageDigest.Hex 12 = none ∧
    imagesJsonHandler "amd64".toList (fun _ => some 100)
        (some [⟨"hello.meta".toList, false, some "20261101".toList, some metaWithoutDigest⟩]) =
      ImagesJson.panic ∧
    imagesJsonHandler "amd64".toList (fun _ => some 100)
        (some [⟨"good.meta".toList, false, some "20261101".toList, some metaWithDigest⟩,
          ⟨"hello.meta".toList, false, some "20261101".toList, some metaWithoutDigest⟩]) =
      ImagesJson.panic ∧
    imagesJsonHandler "amd64".toList (fun _ => some 100)
        (some [⟨"good.meta".toList, false, some "20261101".toList, some metaWithDigest⟩]) =
      ImagesJson.products
        [("good".toList,
          { Aliases := "good/current/default,good/current,good".toList
            Architecture := "amd64".toList
            OperatingSystem := "docker:good".toList
            ReleaseTitle := "latest".toList
            Versions :=
              [("20261101_0123456789ab".toList,
                [("lxd_combined.tar.gz".toList,
                  { FileType := "lxd_combined.tar.gz".toList
                    HashSha256 :=
                      "0123456789abcdef0123456789abcdef0123456789abcdef0123456789abcdef".toList
                    Path := "images/hello-abc.rootfs".toList
                    Size := 100 })])] })] := by
  decide

end Lxdocker
